import Mathlib

/-!
Verification development for the South African Casino card-game engine
(`casino_game.py`).  The Python data model and game operations are embedded
shallowly: pure functions become Lean functions, in-place mutation becomes
explicit state passing on `GameState`, Python exceptions become `Except`
results, and Python sets of integers are represented canonically as sorted
duplicate-free lists (so that `sorted(list(s))` is the representation itself).
-/

namespace Casino

/-- Card suits, mirroring the `Suit` enum of the source. -/
inductive Suit
  | spades
  | hearts
  | diamonds
  | clubs
deriving DecidableEq, Repr

/-- Card ranks.  The source stores ranks as strings `'2'..'10','J','Q','K','A'`;
we use an inductive type with one constructor per rank string. -/
inductive Rank
  | r2 | r3 | r4 | r5 | r6 | r7 | r8 | r9 | r10
  | rJ | rQ | rK | rA
deriving DecidableEq, Repr

/-- The list of gameplay values of a rank (`Card._set_values`): an Ace is 1 or
14, everything else has a single value. -/
def Rank.values : Rank → List ℕ
  | .r2 => [2] | .r3 => [3] | .r4 => [4] | .r5 => [5] | .r6 => [6]
  | .r7 => [7] | .r8 => [8] | .r9 => [9] | .r10 => [10]
  | .rJ => [11] | .rQ => [12] | .rK => [13]
  | .rA => [1, 14]

/-- The `numeric_value` of a rank (`Card._set_values`): the low value for Ace. -/
def Rank.numeric_value : Rank → ℕ
  | .r2 => 2 | .r3 => 3 | .r4 => 4 | .r5 => 5 | .r6 => 6
  | .r7 => 7 | .r8 => 8 | .r9 => 9 | .r10 => 10
  | .rJ => 11 | .rQ => 12 | .rK => 13
  | .rA => 1

/-- A playing card.  Equality is by `(rank, suit)`, exactly as `Card.__eq__`. -/
structure Card where
  rank : Rank
  suit : Suit
deriving DecidableEq, Repr

def Card.values (c : Card) : List ℕ := c.rank.values

def Card.numeric_value (c : Card) : ℕ := c.rank.numeric_value

/-- A build in the layout (`Build` dataclass). -/
structure Build where
  cards : List Card
  total_value : ℕ
  owner : ℕ
  is_augmented : Bool
deriving DecidableEq, Repr

/-- A layout entry: a loose card or a build (`layout: List[Union[Card, Build]]`). -/
inductive LayoutItem
  | loose (c : Card)
  | build (b : Build)
deriving DecidableEq, Repr

/-- A player (`Player`): hand, face-up capture pile, last-capture flag. -/
structure Player where
  hand : List Card
  capture_pile : List Card
  last_capture : Bool
deriving DecidableEq, Repr

def default_player : Player := ⟨[], [], false⟩

/-- The game state mutated by the engine: the shared layout, the players in
seating order (a player's id is its index), and the optional partnerships. -/
structure GameState where
  layout : List LayoutItem
  players : List Player
  partnerships : Option (List (ℕ × ℕ))
deriving DecidableEq, Repr

/-- `get_loose_cards`: all loose cards of the layout, in layout order. -/
def get_loose_cards (layout : List LayoutItem) : List Card :=
  layout.filterMap fun it =>
    match it with
    | .loose c => some c
    | .build _ => none

/-- `get_builds`: all builds of the layout, in layout order. -/
def get_builds (layout : List LayoutItem) : List Build :=
  layout.filterMap fun it =>
    match it with
    | .loose _ => none
    | .build b => some b

/-- Insertion into the sorted duplicate-free list representing a Python set
of naturals (`set.add`). -/
def insert_sorted (a : ℕ) : List ℕ → List ℕ
  | [] => [a]
  | b :: bs => if a < b then a :: b :: bs else if a = b then b :: bs else b :: insert_sorted a bs

/-- One step of `calculate_total`'s loop: `new_totals.add(total + value)` for
every partial sum and every value of the next card, starting from the empty
set. -/
def calc_step (totals : List ℕ) (c : Card) : List ℕ :=
  totals.foldl (fun acc t => c.values.foldl (fun acc' v => insert_sorted (t + v) acc') acc) []

/-- `calculate_total`: all achievable totals starting from `{0}`, as the
sorted duplicate-free list `sorted(list(totals))`. -/
def calculate_total (cards : List Card) : List ℕ :=
  cards.foldl calc_step [0]

/-- `find_captures`: enumerate all capture groups for a played card.  The
source builds, in order: single-item matches over `loose + builds`, then all
size-`r` combinations of loose cards for `r = 2..n`, then one-loose-card-plus-
one-build pairs.  Python's `itertools.combinations` over `r = 2..n` yields each
index subset of size at least 2 exactly once, which is the same collection of
lists as `sublists` filtered by length. -/
def find_captures (played : Card) (layout : List LayoutItem) : List (List LayoutItem) :=
  let loose := get_loose_cards layout
  let builds := get_builds layout
  let singles :=
    (loose.filterMap fun c =>
      if played.numeric_value = c.numeric_value then some [LayoutItem.loose c] else none) ++
    (builds.filterMap fun b =>
      if played.numeric_value = b.total_value then some [LayoutItem.build b] else none)
  let multis :=
    (loose.sublists.filter fun combo => 2 ≤ combo.length).filterMap fun combo =>
      if played.numeric_value ∈ calculate_total combo
      then some (combo.map LayoutItem.loose) else none
  let build_combos :=
    builds.flatMap fun b =>
      loose.filterMap fun c =>
        if played.numeric_value ∈ (calculate_total [c]).map (fun t => t + b.total_value)
        then some [LayoutItem.loose c, LayoutItem.build b] else none
  singles ++ multis ++ build_combos

/-- A build configuration of type `'single'` as produced by `can_create_build`
(the `played_card` and `type` entries of the Python dict are implied). -/
structure BuildConfig where
  cards : List Card
  total_value : ℕ
deriving DecidableEq, Repr

/-- The `available_capture_values` of `can_create_build`/`can_augment_build`:
numeric values of the hand cards other than the played card. -/
def available_capture_values (played : Card) (hand : List Card) : List ℕ :=
  (hand.filter fun c => c ≠ played).map Card.numeric_value

/-- `can_create_build`: for every non-empty combination of loose cards, offer
the first total of `combo + played` (in `calculate_total` order) that the
player can capture with another hand card; the inner `break` makes it one
option per combination. -/
def can_create_build (played : Card) (hand : List Card) (layout : List LayoutItem) :
    List BuildConfig :=
  let loose := get_loose_cards layout
  let avail := available_capture_values played hand
  (loose.sublists.filter fun combo => combo ≠ []).filterMap fun combo =>
    ((calculate_total (combo ++ [played])).find? fun t => t ∈ avail).map fun t =>
      BuildConfig.mk combo t

/-- An augmentation option of `can_augment_build`: either change an opponent's
build to a new total (taking ownership), or augment an own/partner build with
an equal-valued card from the loose layout or an opponent's pile top. -/
inductive AugmentOption
  | change_opponent_build (b : Build) (new_total : ℕ)
  | augment_own (b : Build) (augmenting_card : Card)
deriving DecidableEq, Repr

/-- `_are_partners`: whether two player ids form one of the partnership pairs. -/
def are_partners (partnerships : Option (List (ℕ × ℕ))) (i j : ℕ) : Bool :=
  match partnerships with
  | none => false
  | some pairs => pairs.any fun p => (p.1 == i && p.2 == j) || (p.1 == j && p.2 == i)

/-- `can_augment_build`: for each build, opponent builds offer every new total
the player holds a capture card for; own/partner builds offer every loose card
or opponent pile-top card with a value equal to the build's current total. -/
def can_augment_build (played : Card) (pid : ℕ) (gs : GameState) : List AugmentOption :=
  let hand := (gs.players.getD pid default_player).hand
  let avail := available_capture_values played hand
  let is_partnership := gs.partnerships.isSome
  let opponent_tops :=
    gs.players.enum.filterMap fun ip =>
      if ip.1 ≠ pid ∧ (¬is_partnership ∨ ¬(are_partners gs.partnerships pid ip.1 = true))
      then ip.2.capture_pile.getLast? else none
  (get_builds gs.layout).flatMap fun b =>
    (if b.owner ≠ pid ∧ (¬is_partnership ∨ ¬(are_partners gs.partnerships pid b.owner = true))
     then (calculate_total (b.cards ++ [played])).filterMap fun t =>
        if t ∈ avail then some (AugmentOption.change_opponent_build b t) else none
     else []) ++
    (if b.owner = pid ∨ (is_partnership ∧ are_partners gs.partnerships pid b.owner = true)
     then (get_loose_cards gs.layout ++ opponent_tops).flatMap fun c =>
        c.values.filterMap fun v =>
          if v = b.total_value then some (AugmentOption.augment_own b c) else none
     else [])

/-- `list.remove(x)` of Python: remove the first occurrence of `x`, or raise
`ValueError` (`none`) when absent. -/
def remove_first (layout : List LayoutItem) (x : LayoutItem) : Option (List LayoutItem) :=
  match layout with
  | [] => none
  | y :: ys => if y = x then some ys else (remove_first ys x).map fun l => y :: l

/-- The removal loop of `execute_capture`/`execute_build`.  On a missing item
Python raises `ValueError` out of the loop, leaving the removals already done
in place; the `error` branch carries that partially mutated layout. -/
def remove_group_run : List LayoutItem → List LayoutItem →
    Except (List LayoutItem) (List LayoutItem)
  | layout, [] => Except.ok layout
  | layout, x :: xs =>
    match remove_first layout x with
    | none => Except.error layout
    | some l => remove_group_run l xs

/-- The cards contributed by a layout item: a loose card itself, a build its
full member-card list. -/
def item_cards : LayoutItem → List Card
  | .loose c => [c]
  | .build b => b.cards

/-- The `cards_to_capture` collection of `execute_capture` (also the
`remaining_cards` collection of `end_of_hand_cleanup`). -/
def cards_of_items : List LayoutItem → List Card
  | [] => []
  | it :: its => item_cards it ++ cards_of_items its

/-- Replace the pid-th player (identity-stable mutation of `players[pid]`). -/
def modify_player : List Player → ℕ → (Player → Player) → List Player
  | [], _, _ => []
  | p :: ps, 0, f => f p :: ps
  | p :: ps, n + 1, f => p :: modify_player ps n f

/-- `execute_capture` with Python's exception semantics: on a stale item the
`ValueError` escapes after the earlier removals already happened (`error`
carries the state at the raise).  On success the captured items leave the
layout, the pile gains `played` then the captured cards, and the last-capture
flags are reset with only the acting player's set. -/
def execute_capture_run (gs : GameState) (pid : ℕ) (played : Card)
    (group : List LayoutItem) : Except GameState GameState :=
  match remove_group_run gs.layout group with
  | .error l => Except.error { gs with layout := l }
  | .ok l =>
    Except.ok { gs with
      layout := l
      players :=
        modify_player (gs.players.map fun p => { p with last_capture := false }) pid
          fun p => { p with
            capture_pile := p.capture_pile ++ played :: cards_of_items group
            last_capture := true } }

/-- `execute_capture`: returns `none` for an empty group (the `return False`
branch) or when the removal loop raises. -/
def execute_capture (gs : GameState) (pid : ℕ) (played : Card)
    (group : List LayoutItem) : Option GameState :=
  if group = [] then none
  else (execute_capture_run gs pid played group).toOption

/-- `execute_build` for a `'single'` configuration: remove the used loose
cards, then append the new build (cards are `config['cards'] + [played]`). -/
def execute_build_single (gs : GameState) (pid : ℕ) (played : Card)
    (cfg : BuildConfig) : Option GameState :=
  match remove_group_run gs.layout (cfg.cards.map LayoutItem.loose) with
  | .error _ => none
  | .ok l =>
    some { gs with
      layout := l ++ [LayoutItem.build (Build.mk (cfg.cards ++ [played]) cfg.total_value pid false)] }

/-- Replace the first occurrence of a layout item (in-place mutation of the
referenced `Build` object). -/
def replace_first (layout : List LayoutItem) (x y : LayoutItem) : List LayoutItem :=
  match layout with
  | [] => []
  | z :: zs => if z = x then y :: zs else z :: replace_first zs x y

/-- `execute_build` for `'change_opponent_build'`: append the played card to
the build, set its total to the new total and its owner to the acting player
(`is_augmented` is left as it was). -/
def execute_change_build (gs : GameState) (pid : ℕ) (played : Card)
    (b : Build) (new_total : ℕ) : GameState :=
  { gs with
    layout := replace_first gs.layout (LayoutItem.build b)
      (LayoutItem.build (Build.mk (b.cards ++ [played]) new_total pid b.is_augmented)) }

/-- `execute_build` for `'augment_own_build'`: remove the augmenting card from
the layout only when it is a loose layout card (an opponent pile-top card is
appended into the build without leaving the pile), then append the played and
augmenting cards to the build and mark it augmented; `total_value` and `owner`
are unchanged. -/
def execute_augment_own (gs : GameState) (played : Card)
    (b : Build) (augmenting_card : Card) : GameState :=
  let layout₁ :=
    if augmenting_card ∈ get_loose_cards gs.layout
    then (remove_first gs.layout (LayoutItem.loose augmenting_card)).getD gs.layout
    else gs.layout
  { gs with
    layout := replace_first layout₁ (LayoutItem.build b)
      (LayoutItem.build (Build.mk (b.cards ++ [played, augmenting_card]) b.total_value b.owner true)) }

/-- `discard_card`: append the played card to the layout as a loose card. -/
def discard_card (gs : GameState) (played : Card) : GameState :=
  { gs with layout := gs.layout ++ [LayoutItem.loose played] }

/-- `end_of_hand_cleanup`: the first player with `last_capture` set receives
every remaining layout card (builds exploded) and the layout is cleared; with
no such player nothing happens. -/
def end_of_hand_cleanup (gs : GameState) : GameState :=
  match gs.players.findIdx? fun p => p.last_capture with
  | none => gs
  | some i =>
    if gs.layout = [] then gs
    else
      { gs with
        layout := []
        players := modify_player gs.players i fun p =>
          { p with capture_pile := p.capture_pile ++ cards_of_items gs.layout } }

/-- The special cards of the scoring rules. -/
def spy_two : Card := ⟨.r2, .spades⟩

def big_ten : Card := ⟨.r10, .diamonds⟩

/-- `Player.has_card`: membership test over the hand (`any(c == card ...)`). -/
def has_card (p : Player) (c : Card) : Bool :=
  p.hand.any fun c' => c' == c

/-- `Player.count_spades`: spades in the capture pile. -/
def count_spades (p : Player) : ℕ :=
  p.capture_pile.countP fun c => c.suit == Suit.spades

/-- The per-player special-card score accumulated by `calculate_scores`:
the 2♠ and 10♦ checks look at the hand (`has_card`) as well as the capture
pile, the Ace count looks only at the capture pile. -/
def special_score (p : Player) : ℕ :=
  (if has_card p spy_two = true ∨ spy_two ∈ p.capture_pile then 1 else 0) +
  (if has_card p big_ten = true ∨ big_ten ∈ p.capture_pile then 2 else 0) +
  p.capture_pile.countP fun c => c.rank == Rank.rA

/-- `Player.count_cards`: size of the capture pile. -/
def count_cards (p : Player) : ℕ := p.capture_pile.length

/-- A key of the accumulation dicts of `calculate_scores`: a bare player id,
or the sorted id pair of a partnership (`tuple(sorted([id, partner_id]))`). -/
inductive ScoreKey
  | solo (i : ℕ)
  | pair (i j : ℕ)
deriving DecidableEq, Repr

/-- The player ids credited when a key receives points (`for pid in key`);
a solo key credits its one player, a pair key credits both partners. -/
def ScoreKey.members : ScoreKey → List ℕ
  | .solo i => [i]
  | .pair i j => [i, j]

/-- `_get_partner_id`: the other member of the first partnership pair
containing the player, if any (`if not self.partnerships` also catches an
empty list). -/
def get_partner_id (partnerships : Option (List (ℕ × ℕ))) (pid : ℕ) : Option ℕ :=
  match partnerships with
  | none => none
  | some pairs =>
    match pairs.find? fun p => p.1 == pid || p.2 == pid with
    | none => none
    | some p => if p.1 = pid then some p.2 else some p.1

/-- The dict key of a player in `calculate_scores`: the sorted partner pair
in a partnership game, the bare id otherwise.  (A partnership game in which
a player has no partner makes the source raise a `TypeError` on
`sorted([id, None])`; that unreachable branch is modelled as pairing the
player with itself.) -/
def player_key (partnerships : Option (List (ℕ × ℕ))) (pid : ℕ) : ScoreKey :=
  if partnerships.isSome then
    match get_partner_id partnerships pid with
    | some q => if pid ≤ q then ScoreKey.pair pid q else ScoreKey.pair q pid
    | none => ScoreKey.pair pid pid
  else ScoreKey.solo pid

/-- Keys of a dict in first-touch order, each once (Python dict iteration
order). -/
def first_dedup : List ScoreKey → List ScoreKey
  | [] => []
  | k :: ks => k :: (first_dedup ks).filter fun k' => k' ≠ k

/-- The keys touched by the accumulation loop of `calculate_scores`, in
player order. -/
def score_keys (partnerships : Option (List (ℕ × ℕ))) (players : List Player) :
    List ScoreKey :=
  first_dedup (players.enum.map fun ip => player_key partnerships ip.1)

/-- A defaultdict of `calculate_scores`: the per-key accumulated value of a
per-player contribution (`dict[key] += f(player)` over the players). -/
def tally (partnerships : Option (List (ℕ × ℕ))) (players : List Player)
    (f : Player → ℕ) (k : ScoreKey) : ℕ :=
  ((players.enum.filter fun ip => player_key partnerships ip.1 == k).map
    fun ip => f ip.2).sum

/-- The most-cards / most-spades award of `calculate_scores` for a key: with
a sole leader that key gets 2 points, on a tie every leading key gets 1
(`max(counts.values())` over the touched keys). -/
def majority_award (counts : ScoreKey → ℕ) (keys : List ScoreKey) (k : ScoreKey) : ℕ :=
  let mx := (keys.map counts).foldl max 0
  let winners := keys.filter fun k' => counts k' == mx
  if k ∈ winners then (if winners.length = 1 then 2 else 1) else 0

/-- `calculate_scores`: per-key card, spade and special-card tallies
(partners pooled under their pair key); in the 11-point mode
(`is_partnership_game or num_players == 2`) the card and spade majorities are
awarded first; every points-receiving key then credits each of its member
players (both partners of a pair), with multiplicity. -/
def calculate_scores (partnerships : Option (List (ℕ × ℕ)))
    (players : List Player) : List ℕ :=
  let eleven := partnerships.isSome ∨ players.length = 2
  let keys := score_keys partnerships players
  let card_counts := tally partnerships players count_cards
  let spade_counts := tally partnerships players count_spades
  let special_scores := tally partnerships players special_score
  (List.range players.length).map fun i =>
    (keys.map fun k =>
      (ScoreKey.members k).count i *
        ((if eleven
          then majority_award card_counts keys k + majority_award spade_counts keys k
          else 0) +
         special_scores k)).sum

/-- `_cut_deck`: pop four cards starting at `len // 2 - 2`; the four popped
cards (the future layout) and the remaining deck. -/
def cut_deck (deck : List Card) : List Card × List Card :=
  let middle := deck.length / 2
  ((deck.drop (middle - 2)).take 4,
   deck.take (middle - 2) ++ deck.drop (middle + 2))

/-- The dealing loop of `setup_game`: players repeatedly pop the last card of
the deck in seating order, so the reversed deck is dealt round-robin; the
`k`-th dealt card is appended to the hand of player `k % n`. -/
def deal_cards (n : ℕ) : List Card → ℕ → List (List Card) → List (List Card)
  | [], _, hands => hands
  | c :: cs, k, hands =>
    deal_cards n cs (k + 1) (hands.set (k % n) (hands.getD (k % n) [] ++ [c]))

/-- `setup_game` (after `_create_deck` shuffled the deck): cut four cards from
the middle of the given deck order for the layout, deal the rest. -/
def setup_game (n : ℕ) (partnerships : Option (List (ℕ × ℕ)))
    (deck : List Card) : GameState :=
  let cut := cut_deck deck
  let hands := deal_cards n cut.2.reverse 0 (List.replicate n [])
  { layout := cut.1.map LayoutItem.loose
    players := hands.map fun h => { hand := h, capture_pile := [], last_capture := false }
    partnerships := partnerships }

/-- The full deck built by `_create_deck`, before shuffling: suit-major, with
`J`, `Q`, `K` removed in the 40-card variant. -/
def deck_ranks (use_40 : Bool) : List Rank :=
  if use_40
  then [.r2, .r3, .r4, .r5, .r6, .r7, .r8, .r9, .r10, .rA]
  else [.r2, .r3, .r4, .r5, .r6, .r7, .r8, .r9, .r10, .rJ, .rQ, .rK, .rA]

def full_deck (use_40 : Bool) : List Card :=
  [Suit.spades, Suit.hearts, Suit.diamonds, Suit.clubs].flatMap fun s =>
    (deck_ranks use_40).map fun r => Card.mk r s

/-- `play_card`: pop the card at `idx` from the hand of player `pid`.  Returns
the played card and the state with the popped hand. -/
def play_from_hand (gs : GameState) (pid idx : ℕ) : Option (Card × GameState) :=
  match (gs.players.get? pid).bind fun p => p.hand.get? idx with
  | none => none
  | some c =>
    some (c, { gs with
      players := modify_player gs.players pid fun p => { p with hand := p.hand.eraseIdx idx } })

/-- The action a player chooses for a turn, with its payload. -/
inductive Act
  | capture (group : List LayoutItem)
  | create (cfg : BuildConfig)
  | change (b : Build) (new_total : ℕ)
  | augment (b : Build) (augmenting_card : Card)
  | discard

/-- One turn of `play_turn`: some player pops a hand card, then applies one of
the actions enumerated for that card on the current state (captures from
`find_captures`, build creations from `can_create_build`, augmentations from
`can_augment_build`) or discards.  The round-robin visiting order of
`play_full_game` only restricts which player moves, so every state reachable
in the game is reachable under this relation. -/
inductive Step : GameState → Act → GameState → Prop
  | capture {gs gs₁ gs' : GameState} {c : Card} (pid idx : ℕ) (group : List LayoutItem) :
      play_from_hand gs pid idx = some (c, gs₁) →
      group ∈ find_captures c gs₁.layout →
      execute_capture gs₁ pid c group = some gs' →
      Step gs (Act.capture group) gs'
  | create {gs gs₁ gs' : GameState} {c : Card} (pid idx : ℕ) (cfg : BuildConfig) :
      play_from_hand gs pid idx = some (c, gs₁) →
      cfg ∈ can_create_build c ((gs₁.players.getD pid default_player).hand) gs₁.layout →
      execute_build_single gs₁ pid c cfg = some gs' →
      Step gs (Act.create cfg) gs'
  | change {gs gs₁ : GameState} {c : Card} (pid idx : ℕ) (b : Build) (t : ℕ) :
      play_from_hand gs pid idx = some (c, gs₁) →
      AugmentOption.change_opponent_build b t ∈ can_augment_build c pid gs₁ →
      Step gs (Act.change b t) (execute_change_build gs₁ pid c b t)
  | augment {gs gs₁ : GameState} {c : Card} (pid idx : ℕ) (b : Build) (aug : Card) :
      play_from_hand gs pid idx = some (c, gs₁) →
      AugmentOption.augment_own b aug ∈ can_augment_build c pid gs₁ →
      Step gs (Act.augment b aug) (execute_augment_own gs₁ c b aug)
  | discard {gs gs₁ : GameState} {c : Card} (pid idx : ℕ) :
      play_from_hand gs pid idx = some (c, gs₁) →
      Step gs Act.discard (discard_card gs₁ c)

/-- States reachable from `init` by turns whose actions satisfy `P`. -/
inductive ReachableFrom (P : GameState → Act → Prop) (init : GameState) : GameState → Prop
  | refl : ReachableFrom P init init
  | tail {gs gs' : GameState} {a : Act} :
      ReachableFrom P init gs → Step gs a gs' → P gs a → ReachableFrom P init gs'

/-- Actions that do not augment an own/partner build with an opponent's
pile-top card: the augmenting card must be a loose layout card. -/
def loose_augment_only (gs : GameState) : Act → Prop
  | .augment _ aug => LayoutItem.loose aug ∈ gs.layout
  | _ => True

/-- Actions that are not own/partner-build augmentations at all. -/
def no_own_augment (_ : GameState) : Act → Prop
  | .augment _ _ => False
  | _ => True

/-- The multiset of cards sitting in the layout (loose cards plus the member
cards of every build). -/
def zone_of_items (layout : List LayoutItem) : Multiset Card :=
  ((layout : Multiset LayoutItem).map fun it => (item_cards it : Multiset Card)).sum

/-- The multiset of cards held by one player (hand plus capture pile). -/
def player_cards (p : Player) : Multiset Card :=
  (p.hand : Multiset Card) + (p.capture_pile : Multiset Card)

/-- The multiset union of every zone of the state: layout (loose cards and
build members), hands and capture piles.  After `setup_game` the deck is
empty, so it contributes nothing. -/
def zones (gs : GameState) : Multiset Card :=
  zone_of_items gs.layout +
    ((gs.players : Multiset Player).map player_cards).sum

/-! Turn helpers used to spell out concrete play traces: each one pops a hand
card and applies the corresponding execution function. -/

def after_discard (gs : GameState) (pid idx : ℕ) : GameState :=
  match play_from_hand gs pid idx with
  | some (c, gs₁) => discard_card gs₁ c
  | none => gs

def after_capture (gs : GameState) (pid idx : ℕ) (group : List LayoutItem) : GameState :=
  match play_from_hand gs pid idx with
  | some (c, gs₁) => (execute_capture gs₁ pid c group).getD gs₁
  | none => gs

def after_build (gs : GameState) (pid idx : ℕ) (cfg : BuildConfig) : GameState :=
  match play_from_hand gs pid idx with
  | some (c, gs₁) => (execute_build_single gs₁ pid c cfg).getD gs₁
  | none => gs

def after_augment (gs : GameState) (pid idx : ℕ) (b : Build) (aug : Card) : GameState :=
  match play_from_hand gs pid idx with
  | some (c, gs₁) => execute_augment_own gs₁ c b aug
  | none => gs

/-! A concrete two-player deal of the 40-card deck giving a five-turn play
that ends with an own-build augmentation taking the opponent's pile-top card.
Deck positions 18–21 become the layout `[5♥, 9♠, 9♣, 4♦]`; the rest is dealt
alternately from the back, so player 0's hand starts `[2♦, 5♦, 9♦, …]` and
player 1's starts `[9♥, 2♥, …]`. -/

def ex_deck : List Card :=
  [⟨.r2, .spades⟩, ⟨.r3, .spades⟩, ⟨.r4, .spades⟩, ⟨.r5, .spades⟩,
   ⟨.r6, .spades⟩, ⟨.r7, .spades⟩, ⟨.r8, .spades⟩, ⟨.r10, .spades⟩,
   ⟨.rA, .spades⟩, ⟨.r3, .hearts⟩, ⟨.r4, .hearts⟩, ⟨.r6, .hearts⟩,
   ⟨.r7, .hearts⟩, ⟨.r8, .hearts⟩, ⟨.r10, .hearts⟩, ⟨.rA, .hearts⟩,
   ⟨.r3, .diamonds⟩, ⟨.r6, .diamonds⟩,
   ⟨.r5, .hearts⟩, ⟨.r9, .spades⟩, ⟨.r9, .clubs⟩, ⟨.r4, .diamonds⟩,
   ⟨.r7, .diamonds⟩, ⟨.r8, .diamonds⟩, ⟨.r10, .diamonds⟩, ⟨.rA, .diamonds⟩,
   ⟨.r2, .clubs⟩, ⟨.r3, .clubs⟩, ⟨.r4, .clubs⟩, ⟨.r5, .clubs⟩,
   ⟨.r6, .clubs⟩, ⟨.r7, .clubs⟩, ⟨.r8, .clubs⟩, ⟨.r10, .clubs⟩,
   ⟨.rA, .clubs⟩, ⟨.r9, .diamonds⟩, ⟨.r2, .hearts⟩, ⟨.r5, .diamonds⟩,
   ⟨.r9, .hearts⟩, ⟨.r2, .diamonds⟩]

/-- The build player 0 creates on turn four: `[4♦, 5♦]` pinned to 9. -/
def ex_build : Build := ⟨[⟨.r4, .diamonds⟩, ⟨.r5, .diamonds⟩], 9, 0, false⟩

/-- The build after turn five's augmentation: 9♦ and the opponent's pile-top
9♠ were appended, the pinned total 9 is no longer achievable from the cards. -/
def ex_bad_build : Build :=
  ⟨[⟨.r4, .diamonds⟩, ⟨.r5, .diamonds⟩, ⟨.r9, .diamonds⟩, ⟨.r9, .spades⟩], 9, 0, true⟩

def ex_gs0 : GameState := setup_game 2 none ex_deck

/-- Turn 1: player 0 discards 2♦. -/
def ex_gs1 : GameState := after_discard ex_gs0 0 0

/-- Turn 2: player 1 plays 9♥ and captures the loose 9♠. -/
def ex_gs2 : GameState := after_capture ex_gs1 1 0 [LayoutItem.loose ⟨.r9, .spades⟩]

/-- Turn 3: player 1 discards 2♥. -/
def ex_gs3 : GameState := after_discard ex_gs2 1 0

/-- Turn 4: player 0 plays 5♦ and builds `[4♦] + 5♦` as a 9-build (9♦ in hand). -/
def ex_gs4 : GameState := after_build ex_gs3 0 0 ⟨[⟨.r4, .diamonds⟩], 9⟩

/-- Turn 5: player 0 plays 9♦ and augments the own 9-build with the visible
9♠ on top of player 1's capture pile. -/
def ex_gs5 : GameState := after_augment ex_gs4 0 0 ex_build ⟨.r9, .spades⟩

/-- The state `execute_capture` raises from when the second item of the chosen
group is stale: the layout holds only 7♥. -/
def stale_state : GameState :=
  ⟨[LayoutItem.loose ⟨.r7, .hearts⟩], [default_player, default_player], none⟩

/-- The state at the moment the `ValueError` escapes: 7♥ already removed. -/
def stale_state_after : GameState :=
  ⟨[], [default_player, default_player], none⟩

/-- Whether a layout item is a build. -/
def is_build_item : LayoutItem → Bool
  | .loose _ => false
  | .build _ => true

/-- Sum of per-player card multisets. -/
def players_cards (ps : List Player) : Multiset Card :=
  ((ps : Multiset Player).map player_cards).sum

/-- Sum of hand multisets. -/
def hands_cards (hands : List (List Card)) : Multiset Card :=
  ((hands : Multiset (List Card)).map fun h => (h : Multiset Card)).sum

/-- The build-validity invariant of the spec: every build's pinned total is
achievable from its member cards. -/
def builds_valid (gs : GameState) : Prop :=
  ∀ b ∈ get_builds gs.layout, b.total_value ∈ calculate_total b.cards

/-- A four-player partnership game (`[(0, 2), (1, 3)]`) exercising the
scoring claim: player 0 still holds 2♠ in hand, partner 2 captured 10♦. -/
def score_example_partnerships : Option (List (ℕ × ℕ)) := some [(0, 2), (1, 3)]

def score_example_players : List Player :=
  [⟨[spy_two], [], false⟩, default_player, ⟨[], [big_ten], false⟩, default_player]

/-! ### Lemmas about the value-resolution engine -/

lemma mem_insert_sorted {a x : ℕ} : ∀ {l : List ℕ},
    x ∈ insert_sorted a l ↔ x = a ∨ x ∈ l := by
  intro l
  induction l with
  | nil => simp [insert_sorted]
  | cons b bs ih =>
    rw [insert_sorted]
    rcases lt_trichotomy a b with hab | hab | hab
    · rw [if_pos hab]
      simp
    · rw [if_neg (by omega), if_pos hab]
      subst hab
      exact ⟨Or.inr, fun h => h.elim (fun hx => hx ▸ List.mem_cons_self _ _) id⟩
    · rw [if_neg (by omega), if_neg (by omega)]
      simp [ih]
      tauto

lemma insert_sorted_sorted {a : ℕ} : ∀ {l : List ℕ},
    l.Sorted (· < ·) → (insert_sorted a l).Sorted (· < ·) := by
  intro l
  induction l with
  | nil => intro _; simp [insert_sorted]
  | cons b bs ih =>
    intro h
    obtain ⟨hb, hbs⟩ := List.sorted_cons.1 h
    rw [insert_sorted]
    rcases lt_trichotomy a b with hab | hab | hab
    · rw [if_pos hab]
      refine List.sorted_cons.2 ⟨?_, h⟩
      intro y hy
      rcases List.mem_cons.1 hy with rfl | hy'
      · exact hab
      · exact lt_trans hab (hb y hy')
    · rw [if_neg (by omega), if_pos hab]
      exact h
    · rw [if_neg (by omega), if_neg (by omega)]
      refine List.sorted_cons.2 ⟨?_, ih hbs⟩
      intro y hy
      rcases mem_insert_sorted.1 hy with rfl | hy'
      · exact hab
      · exact hb y hy'

lemma mem_values_foldl {t x : ℕ} : ∀ (vals acc : List ℕ),
    (x ∈ vals.foldl (fun acc' v => insert_sorted (t + v) acc') acc ↔
      x ∈ acc ∨ ∃ v ∈ vals, x = t + v) := by
  intro vals
  induction vals with
  | nil => intro acc; simp
  | cons v vs ih =>
    intro acc
    rw [List.foldl_cons, ih]
    rw [mem_insert_sorted]
    constructor
    · rintro ((rfl | hacc) | ⟨v', hv', rfl⟩)
      · exact Or.inr ⟨v, List.mem_cons_self _ _, rfl⟩
      · exact Or.inl hacc
      · exact Or.inr ⟨v', List.mem_cons_of_mem _ hv', rfl⟩
    · rintro (hacc | ⟨v', hv', rfl⟩)
      · exact Or.inl (Or.inr hacc)
      · rcases List.mem_cons.1 hv' with rfl | hv''
        · exact Or.inl (Or.inl rfl)
        · exact Or.inr ⟨v', hv'', rfl⟩

lemma mem_calc_step_aux {c : Card} {x : ℕ} : ∀ (totals acc : List ℕ),
    (x ∈ totals.foldl
        (fun acc t => c.values.foldl (fun acc' v => insert_sorted (t + v) acc') acc) acc ↔
      x ∈ acc ∨ ∃ t ∈ totals, ∃ v ∈ c.values, t + v = x) := by
  intro totals
  induction totals with
  | nil => intro acc; simp
  | cons t ts ih =>
    intro acc
    rw [List.foldl_cons, ih, mem_values_foldl]
    constructor
    · rintro ((hacc | ⟨v, hv, rfl⟩) | ⟨t', ht', v, hv, rfl⟩)
      · exact Or.inl hacc
      · exact Or.inr ⟨t, List.mem_cons_self _ _, v, hv, rfl⟩
      · exact Or.inr ⟨t', List.mem_cons_of_mem _ ht', v, hv, rfl⟩
    · rintro (hacc | ⟨t', ht', v, hv, rfl⟩)
      · exact Or.inl (Or.inl hacc)
      · rcases List.mem_cons.1 ht' with rfl | ht''
        · exact Or.inl (Or.inr ⟨v, hv, rfl⟩)
        · exact Or.inr ⟨t', ht'', v, hv, rfl⟩

lemma mem_calc_step {ts : List ℕ} {c : Card} {t' : ℕ} :
    t' ∈ calc_step ts c ↔ ∃ t ∈ ts, ∃ v ∈ c.values, t + v = t' := by
  rw [calc_step, mem_calc_step_aux]
  simp

lemma values_foldl_sorted {t : ℕ} {vals : List ℕ} : ∀ {acc : List ℕ},
    acc.Sorted (· < ·) →
    (vals.foldl (fun acc' v => insert_sorted (t + v) acc') acc).Sorted (· < ·) := by
  induction vals with
  | nil => intro acc h; exact h
  | cons v vs ih => intro acc h; exact ih (insert_sorted_sorted h)

lemma totals_foldl_sorted {c : Card} : ∀ {ts acc : List ℕ}, acc.Sorted (· < ·) →
    (ts.foldl
      (fun acc t => c.values.foldl (fun acc' v => insert_sorted (t + v) acc') acc)
      acc).Sorted (· < ·) := by
  intro ts
  induction ts with
  | nil => intro acc h; exact h
  | cons t ts ih => intro acc h; exact ih (values_foldl_sorted h)

lemma calc_step_sorted {ts : List ℕ} {c : Card} : (calc_step ts c).Sorted (· < ·) := by
  rw [calc_step]
  exact totals_foldl_sorted (by simp)

/-- `calculate_total` always returns a strictly ascending (hence
duplicate-free) list. -/
lemma calculate_total_sorted_lt' (cards : List Card) :
    (calculate_total cards).Sorted (· < ·) := by
  rw [calculate_total]
  have : ∀ (cs : List Card) (init : List ℕ), init.Sorted (· < ·) →
      (cs.foldl calc_step init).Sorted (· < ·) := by
    intro cs
    induction cs with
    | nil => intro init h; exact h
    | cons c cs ih => intro init _; exact ih (calc_step init c) calc_step_sorted
  exact this cards [0] (by simp)

lemma calculate_total_sorted_le (cards : List Card) :
    (calculate_total cards).Sorted (· ≤ ·) :=
  (calculate_total_sorted_lt' cards).le_of_lt

lemma mem_foldl_calc_step (cards : List Card) :
    ∀ (init : List ℕ) (t : ℕ),
      t ∈ cards.foldl calc_step init ↔
        ∃ t₀ ∈ init, ∃ vs : List ℕ,
          List.Forall₂ (fun v c => v ∈ Card.values c) vs cards ∧ t = t₀ + vs.sum := by
  induction cards with
  | nil =>
    intro init t
    simp [List.forall₂_nil_right_iff]
  | cons c cs ih =>
    intro init t
    rw [List.foldl_cons, ih]
    constructor
    · rintro ⟨t₁, ht₁, vs, hvs, rfl⟩
      obtain ⟨t₀, ht₀, v, hv, rfl⟩ := mem_calc_step.1 ht₁
      exact ⟨t₀, ht₀, v :: vs, List.Forall₂.cons hv hvs, by simp [add_assoc]⟩
    · rintro ⟨t₀, ht₀, vs, hvs, rfl⟩
      cases hvs with
      | cons hv hvs' =>
        rename_i v vs'
        refine ⟨t₀ + v, mem_calc_step.2 ⟨t₀, ht₀, v, hv, rfl⟩, vs', hvs', by simp [add_assoc]⟩

/-- Membership characterization of `calculate_total`: exactly the sums of one
chosen value per card. -/
lemma mem_calculate_total {cards : List Card} {t : ℕ} :
    t ∈ calculate_total cards ↔
      ∃ vs : List ℕ, List.Forall₂ (fun v c => v ∈ Card.values c) vs cards ∧ vs.sum = t := by
  rw [calculate_total, mem_foldl_calc_step]
  constructor
  · rintro ⟨t₀, ht₀, vs, hvs, rfl⟩
    rw [List.mem_singleton] at ht₀
    exact ⟨vs, hvs, by omega⟩
  · rintro ⟨vs, hvs, rfl⟩
    exact ⟨0, List.mem_singleton_self 0, vs, hvs, by omega⟩

/-! ### Lemmas about `find?` on sorted lists -/

lemma sorted_find?_min {l : List ℕ} {p : ℕ → Bool} {a : ℕ}
    (hs : l.Sorted (· ≤ ·)) (hf : l.find? p = some a) :
    ∀ b ∈ l, p b = true → a ≤ b := by
  induction l with
  | nil => simp at hf
  | cons x xs ih =>
    by_cases hx : p x = true
    · rw [List.find?_cons_of_pos _ hx] at hf
      injection hf with hf
      subst hf
      intro b hb _
      rcases List.mem_cons.1 hb with rfl | hb
      · exact le_refl _
      · exact (List.sorted_cons.1 hs).1 b hb
    · rw [List.find?_cons_of_neg _ (by simpa using hx)] at hf
      intro b hb hpb
      rcases List.mem_cons.1 hb with rfl | hb
      · exact absurd hpb hx
      · exact ih (List.sorted_cons.1 hs).2 hf b hb hpb

lemma sorted_find?_eq {l : List ℕ} {p : ℕ → Bool} {a : ℕ}
    (hs : l.Sorted (· ≤ ·)) (ha : a ∈ l) (hpa : p a = true)
    (hmin : ∀ b ∈ l, p b = true → a ≤ b) : l.find? p = some a := by
  obtain ⟨a', ha'⟩ := Option.isSome_iff_exists.1 (List.find?_isSome.2 ⟨a, ha, hpa⟩)
  have h1 := List.find?_some ha'
  have h2 := List.mem_of_find?_eq_some ha'
  have h3 := sorted_find?_min hs ha' a ha hpa
  have h4 := hmin a' h2 h1
  have : a' = a := le_antisymm h3 h4
  rw [ha', this]

/-! ### Lemmas about `can_create_build` -/

/-- Membership in `available_capture_values` is holding another matching card. -/
lemma mem_available_capture_values {played : Card} {hand : List Card} {t : ℕ} :
    t ∈ available_capture_values played hand ↔
      ∃ c ∈ hand, c ≠ played ∧ c.numeric_value = t := by
  simp [available_capture_values, List.mem_filter]
  constructor
  · rintro ⟨c, ⟨hc, hne⟩, rfl⟩
    exact ⟨c, hc, hne, rfl⟩
  · rintro ⟨c, hc, hne, rfl⟩
    exact ⟨c, ⟨hc, hne⟩, rfl⟩

/-- Full characterization of `can_create_build`: the offered options are
exactly one per non-empty loose-card combination that has a qualifying total,
carrying the least qualifying total (the first in `calculate_total`'s sorted
output). -/
lemma mem_can_create_build {played : Card} {hand : List Card}
    {layout : List LayoutItem} {cfg : BuildConfig} :
    cfg ∈ can_create_build played hand layout ↔
      cfg.cards.Sublist (get_loose_cards layout) ∧ cfg.cards ≠ [] ∧
      cfg.total_value ∈ calculate_total (cfg.cards ++ [played]) ∧
      (∃ c ∈ hand, c ≠ played ∧ c.numeric_value = cfg.total_value) ∧
      (∀ t ∈ calculate_total (cfg.cards ++ [played]),
        (∃ c ∈ hand, c ≠ played ∧ c.numeric_value = t) → cfg.total_value ≤ t) := by
  constructor
  · intro h
    rw [can_create_build, List.mem_filterMap] at h
    obtain ⟨combo, hcombo, hopt⟩ := h
    rw [List.mem_filter] at hcombo
    obtain ⟨hsub, hne⟩ := hcombo
    rw [List.mem_sublists] at hsub
    obtain ⟨t, hfind, rfl⟩ := Option.map_eq_some'.1 hopt
    have hmem := List.mem_of_find?_eq_some hfind
    have hp := List.find?_some hfind
    have hmin := sorted_find?_min (calculate_total_sorted_le _) hfind
    refine ⟨hsub, by simpa using hne, hmem, ?_, ?_⟩
    · exact mem_available_capture_values.1 (by simpa using hp)
    · intro t' ht' hq
      exact hmin t' ht' (by simpa using mem_available_capture_values.2 hq)
  · rintro ⟨hsub, hne, hmem, hq, hmin⟩
    rw [can_create_build, List.mem_filterMap]
    refine ⟨cfg.cards, ?_, ?_⟩
    · rw [List.mem_filter, List.mem_sublists]
      exact ⟨hsub, by simpa using hne⟩
    · have hfind :
          (calculate_total (cfg.cards ++ [played])).find?
              (fun t => t ∈ available_capture_values played hand) = some cfg.total_value := by
        refine sorted_find?_eq (calculate_total_sorted_le _) hmem ?_ ?_
        · simpa using mem_available_capture_values.2 hq
        · intro b hb hpb
          exact hmin b hb (mem_available_capture_values.1 (by simpa using hpb))
      rw [hfind]
      rfl

/-- Options whose cards are not in the enumerated combination list do not
occur in the filtered-mapped output. -/
lemma countP_create_zero {played : Card} {avail : List ℕ} {cs : List Card}
    {l : List (List Card)} (h : cs ∉ l) :
    ((l.filterMap fun combo =>
        ((calculate_total (combo ++ [played])).find? fun t => t ∈ avail).map fun t =>
          BuildConfig.mk combo t).countP fun cfg => cfg.cards == cs) = 0 := by
  induction l with
  | nil => rfl
  | cons x xs ih =>
    have hx : x ≠ cs := fun hx => h (hx ▸ List.mem_cons_self x xs)
    have hxs : cs ∉ xs := fun hxs => h (List.mem_cons_of_mem x hxs)
    rw [List.filterMap_cons]
    cases hfind : ((calculate_total (x ++ [played])).find? fun t => t ∈ avail) with
    | none => simpa using ih hxs
    | some t =>
      rw [Option.map_some', List.countP_cons]
      simpa [hx] using ih hxs

lemma countP_create_le_one_aux {played : Card} {avail : List ℕ} {cs : List Card} :
    ∀ {l : List (List Card)}, l.Nodup →
      ((l.filterMap fun combo =>
          ((calculate_total (combo ++ [played])).find? fun t => t ∈ avail).map fun t =>
            BuildConfig.mk combo t).countP fun cfg => cfg.cards == cs) ≤ 1 := by
  intro l
  induction l with
  | nil => intro _; simp
  | cons x xs ih =>
    intro hnd
    rw [List.filterMap_cons]
    cases hfind : ((calculate_total (x ++ [played])).find? fun t => t ∈ avail) with
    | none => exact ih (List.nodup_cons.1 hnd).2
    | some t =>
      rw [Option.map_some', List.countP_cons]
      by_cases hx : x = cs
      · subst hx
        have h0 := @countP_create_zero played avail x xs (List.nodup_cons.1 hnd).1
        simp [h0]
      · have h1 := ih (List.nodup_cons.1 hnd).2
        simpa [hx] using h1

/-- At most one option per combination (the `break` in the source): when the
loose cards are distinct, so are the enumerated combinations, and each yields
at most one configuration. -/
lemma countP_create_le_one {played : Card} {hand : List Card}
    {layout : List LayoutItem} {cs : List Card}
    (hnd : (get_loose_cards layout).Nodup) :
    ((can_create_build played hand layout).countP fun cfg => cfg.cards == cs) ≤ 1 := by
  rw [can_create_build]
  exact countP_create_le_one_aux ((List.nodup_sublists.2 hnd).filter _)

/-! ### Lemmas about `find_captures` -/

/-- Membership characterization of `find_captures`: exactly the four group
shapes produced by the source's three enumeration passes. -/
lemma mem_find_captures {played : Card} {layout : List LayoutItem}
    {g : List LayoutItem} :
    g ∈ find_captures played layout ↔
      (∃ c ∈ get_loose_cards layout,
        c.numeric_value = played.numeric_value ∧ g = [LayoutItem.loose c]) ∨
      (∃ b ∈ get_builds layout,
        b.total_value = played.numeric_value ∧ g = [LayoutItem.build b]) ∨
      (∃ cs : List Card, cs.Sublist (get_loose_cards layout) ∧ 2 ≤ cs.length ∧
        played.numeric_value ∈ calculate_total cs ∧ g = cs.map LayoutItem.loose) ∨
      (∃ b ∈ get_builds layout, ∃ c ∈ get_loose_cards layout,
        (∃ t ∈ calculate_total [c], t + b.total_value = played.numeric_value) ∧
        g = [LayoutItem.loose c, LayoutItem.build b]) := by
  rw [find_captures]
  simp only [List.mem_append, List.mem_filterMap, List.mem_filter, List.mem_sublists,
    List.mem_flatMap, List.mem_map]
  constructor
  · rintro (((⟨c, hc, hg⟩ | ⟨b, hb, hg⟩) | ⟨cs, ⟨hsub, hlen⟩, hg⟩) | ⟨b, hb, c, hc, hg⟩)
    · left
      rcases Decidable.em (played.numeric_value = c.numeric_value) with h | h
      · exact ⟨c, hc, h.symm, by simpa [h] using hg.symm⟩
      · simp [h] at hg
    · right; left
      rcases Decidable.em (played.numeric_value = b.total_value) with h | h
      · exact ⟨b, hb, h.symm, by simpa [h] using hg.symm⟩
      · simp [h] at hg
    · right; right; left
      rcases Decidable.em (played.numeric_value ∈ calculate_total cs) with h | h
      · exact ⟨cs, hsub, by simpa using hlen, h, by simpa [h] using hg.symm⟩
      · simp [h] at hg
    · right; right; right
      by_cases h : ∃ t ∈ calculate_total [c], t + b.total_value = played.numeric_value
      · rw [if_pos h] at hg
        injection hg with hg
        exact ⟨b, hb, c, hc, h, hg.symm⟩
      · rw [if_neg h] at hg
        exact absurd hg (by simp)
  · rintro (⟨c, hc, hv, rfl⟩ | ⟨b, hb, hv, rfl⟩ | ⟨cs, hsub, hlen, hv, rfl⟩ |
      ⟨b, hb, c, hc, ⟨t, ht, hts⟩, rfl⟩)
    · exact Or.inl (Or.inl (Or.inl ⟨c, hc, by simp [hv]⟩))
    · exact Or.inl (Or.inl (Or.inr ⟨b, hb, by simp [hv]⟩))
    · exact Or.inl (Or.inr ⟨cs, ⟨hsub, by simpa using hlen⟩, by simp [hv]⟩)
    · refine Or.inr ⟨b, hb, c, hc, ?_⟩
      have hex : ∃ x ∈ calculate_total [c], x + b.total_value = played.numeric_value :=
        ⟨t, ht, hts⟩
      rw [if_pos hex]

/-! ### Lemmas about removal, replacement and player updates -/

lemma remove_first_eq_some_of_mem {l : List LayoutItem} {x : LayoutItem} (h : x ∈ l) :
    remove_first l x = some (l.erase x) := by
  induction l with
  | nil => simp at h
  | cons y ys ih =>
    by_cases hy : y = x
    · subst hy
      rw [remove_first, if_pos rfl, List.erase_cons_head]
    · rcases List.mem_cons.1 h with rfl | h'
      · exact absurd rfl hy
      · rw [remove_first, if_neg hy, ih h', Option.map_some',
          List.erase_cons_tail (by simpa using fun hxy => hy hxy)]

lemma remove_first_perm {l l' : List LayoutItem} {x : LayoutItem}
    (h : remove_first l x = some l') : l.Perm (x :: l') := by
  induction l generalizing l' with
  | nil => simp [remove_first] at h
  | cons y ys ih =>
    by_cases hy : y = x
    · subst hy
      rw [remove_first, if_pos rfl] at h
      injection h with h
      exact h ▸ List.Perm.refl _
    · rw [remove_first, if_neg hy] at h
      obtain ⟨l₁, h₁, rfl⟩ := Option.map_eq_some'.1 h
      exact ((ih h₁).cons y).trans (List.Perm.swap x y l₁)

lemma remove_first_isSome_of_mem {l : List LayoutItem} {x : LayoutItem} (h : x ∈ l) :
    ∃ l', remove_first l x = some l' :=
  ⟨l.erase x, remove_first_eq_some_of_mem h⟩

lemma remove_group_run_ok_perm {g l l' : List LayoutItem}
    (h : remove_group_run l g = Except.ok l') : l.Perm (g ++ l') := by
  induction g generalizing l with
  | nil =>
    rw [remove_group_run] at h
    injection h with h
    exact h ▸ List.Perm.refl _
  | cons x xs ih =>
    rw [remove_group_run] at h
    cases hrf : remove_first l x with
    | none => rw [hrf] at h; exact absurd h (by simp)
    | some l₁ =>
      rw [hrf] at h
      exact ((remove_first_perm hrf).trans ((ih h).cons x))

lemma remove_group_run_ok_of_nodup :
    ∀ {g l : List LayoutItem}, l.Nodup → g.Nodup → (∀ x ∈ g, x ∈ l) →
      remove_group_run l g = Except.ok (l.filter fun x => x ∉ g) := by
  intro g
  induction g with
  | nil =>
    intro l _ _ _
    simp [remove_group_run]
  | cons a as ih =>
    intro l hl hg hsub
    have ha : a ∈ l := hsub a (List.mem_cons_self a as)
    have hnd := List.nodup_cons.1 hg
    have hsub' : ∀ x ∈ as, x ∈ l.erase a := by
      intro x hx
      have hne : x ≠ a := fun hxa => hnd.1 (hxa ▸ hx)
      exact (List.mem_erase_of_ne hne).2 (hsub x (List.mem_cons_of_mem a hx))
    have hstep : remove_group_run l (a :: as) = remove_group_run (l.erase a) as := by
      rw [remove_group_run, remove_first_eq_some_of_mem ha]
    rw [hstep, ih (hl.erase a) hnd.2 hsub']
    congr 1
    rw [hl.erase_eq_filter, List.filter_filter]
    apply List.filter_congr
    intro x _
    by_cases hxa : x = a
    · simp [hxa]
    · simp [hxa]

lemma modify_player_length (ps : List Player) (i : ℕ) (f : Player → Player) :
    (modify_player ps i f).length = ps.length := by
  induction ps generalizing i with
  | nil => rfl
  | cons p ps ih =>
    cases i with
    | zero => rfl
    | succ k => simpa [modify_player] using ih k

lemma modify_player_getD_self {ps : List Player} {i : ℕ} {f : Player → Player}
    (h : i < ps.length) :
    (modify_player ps i f).getD i default_player = f (ps.getD i default_player) := by
  induction ps generalizing i with
  | nil => simp at h
  | cons p ps ih =>
    cases i with
    | zero => rfl
    | succ k => simpa [modify_player] using ih (by simpa using h)

lemma modify_player_getD_ne {ps : List Player} {i j : ℕ} {f : Player → Player}
    (h : j ≠ i) :
    (modify_player ps i f).getD j default_player = ps.getD j default_player := by
  induction ps generalizing i j with
  | nil => cases i <;> rfl
  | cons p ps ih =>
    cases i with
    | zero =>
      cases j with
      | zero => exact absurd rfl h
      | succ m => rfl
    | succ k =>
      cases j with
      | zero => rfl
      | succ m => simpa [modify_player] using ih (fun hmk => h (by omega))

lemma getD_map_flag {ps : List Player} {j : ℕ} :
    ((ps.map fun p => { p with last_capture := false }).getD j default_player).hand =
      (ps.getD j default_player).hand ∧
    ((ps.map fun p => { p with last_capture := false }).getD j default_player).capture_pile =
      (ps.getD j default_player).capture_pile ∧
    ((ps.map fun p => { p with last_capture := false }).getD j default_player).last_capture =
      false := by
  induction ps generalizing j with
  | nil => cases j <;> simp [default_player]
  | cons p ps ih =>
    cases j with
    | zero => simp
    | succ m => simpa using ih

/-! ### Multiset bookkeeping for the conservation invariant -/

lemma zone_of_items_nil : zone_of_items [] = 0 := rfl

lemma zone_of_items_cons (it : LayoutItem) (l : List LayoutItem) :
    zone_of_items (it :: l) = (item_cards it : Multiset Card) + zone_of_items l := by
  simp [zone_of_items]

lemma zone_of_items_append (l₁ l₂ : List LayoutItem) :
    zone_of_items (l₁ ++ l₂) = zone_of_items l₁ + zone_of_items l₂ := by
  simp [zone_of_items]

lemma zone_of_items_perm {l₁ l₂ : List LayoutItem} (h : l₁.Perm l₂) :
    zone_of_items l₁ = zone_of_items l₂ := by
  unfold zone_of_items
  rw [Multiset.coe_eq_coe.2 h]

lemma zone_of_items_map_loose (cards : List Card) :
    zone_of_items (cards.map LayoutItem.loose) = (cards : Multiset Card) := by
  induction cards with
  | nil => rfl
  | cons c cs ih => simp [zone_of_items_cons, item_cards, ih]

lemma cards_of_items_coe (l : List LayoutItem) :
    (cards_of_items l : Multiset Card) = zone_of_items l := by
  induction l with
  | nil => rfl
  | cons it its ih => simp [cards_of_items, zone_of_items_cons, ih, ← Multiset.coe_add]

lemma players_cards_cons (p : Player) (ps : List Player) :
    players_cards (p :: ps) = player_cards p + players_cards ps := by
  simp [players_cards]

lemma zones_def (gs : GameState) :
    zones gs = zone_of_items gs.layout + players_cards gs.players := rfl

lemma players_cards_modify {ps : List Player} {i : ℕ} {f : Player → Player}
    (h : i < ps.length) :
    players_cards (modify_player ps i f) + player_cards (ps.getD i default_player) =
      players_cards ps + player_cards (f (ps.getD i default_player)) := by
  induction ps generalizing i with
  | nil => simp at h
  | cons p ps ih =>
    cases i with
    | zero =>
      show players_cards (f p :: ps) + player_cards p =
        players_cards (p :: ps) + player_cards (f p)
      rw [players_cards_cons, players_cards_cons]
      abel
    | succ k =>
      show players_cards (p :: modify_player ps k f) + player_cards (ps.getD k default_player) =
        players_cards (p :: ps) + player_cards (f (ps.getD k default_player))
      rw [players_cards_cons, players_cards_cons, add_assoc, add_assoc,
        ih (by simpa using h)]

lemma players_cards_map_flag (ps : List Player) :
    players_cards (ps.map fun p => { p with last_capture := false }) = players_cards ps := by
  induction ps with
  | nil => rfl
  | cons p ps ih =>
    rw [List.map_cons, players_cards_cons, players_cards_cons, ih]
    rfl

lemma eraseIdx_cards {l : List Card} {i : ℕ} {c : Card} (h : l.get? i = some c) :
    (l.eraseIdx i : Multiset Card) + {c} = (l : Multiset Card) := by
  induction l generalizing i with
  | nil => simp at h
  | cons x xs ih =>
    cases i with
    | zero =>
      rw [List.get?] at h
      injection h with h
      rw [← h]
      show (xs : Multiset Card) + {x} = ((x :: xs : List Card) : Multiset Card)
      rw [← Multiset.cons_coe, ← Multiset.singleton_add]
      exact add_comm _ _
    | succ k =>
      rw [List.get?] at h
      have hx := ih h
      show ((x :: xs.eraseIdx k : List Card) : Multiset Card) + {c} =
        ((x :: xs : List Card) : Multiset Card)
      rw [← Multiset.cons_coe, ← Multiset.cons_coe, ← Multiset.singleton_add,
        ← Multiset.singleton_add, add_assoc, hx]

lemma getD_eq_of_get?_eq {ps : List Player} {i : ℕ} {p : Player}
    (h : ps.get? i = some p) : ps.getD i default_player = p := by
  induction ps generalizing i with
  | nil => simp at h
  | cons q qs ih =>
    cases i with
    | zero => rw [List.get?] at h; injection h with h
    | succ k => rw [List.get?] at h; simpa using ih h

/-- What popping the played card does to the state: the layout and
partnerships are untouched, the player count is unchanged, and the card moves
out of the zones. -/
lemma play_from_hand_spec {gs : GameState} {pid idx : ℕ} {c : Card} {gs₁ : GameState}
    (h : play_from_hand gs pid idx = some (c, gs₁)) :
    gs₁.layout = gs.layout ∧ gs₁.partnerships = gs.partnerships ∧
    pid < gs.players.length ∧ gs₁.players.length = gs.players.length ∧
    zones gs₁ + {c} = zones gs := by
  rw [play_from_hand] at h
  cases hpc : (gs.players.get? pid).bind fun p => p.hand.get? idx with
  | none => rw [hpc] at h; exact absurd h (by simp)
  | some c' =>
      rw [hpc] at h
      injection h with h
      injection h with h₁ h₂
      have h₁' : c = c' := h₁.symm
      subst h₂
      subst h₁'
      obtain ⟨p, hp, hc⟩ := Option.bind_eq_some.1 hpc
      have hpid : pid < gs.players.length := List.get?_eq_some.1 hp |>.1
      have hgetD : gs.players.getD pid default_player = p := getD_eq_of_get?_eq hp
      refine ⟨rfl, rfl, hpid, by simp [modify_player_length], ?_⟩
      have hmod := players_cards_modify
        (f := fun p => { p with hand := p.hand.eraseIdx idx }) hpid
      rw [hgetD] at hmod
      have hhand : player_cards { p with hand := p.hand.eraseIdx idx } + {c} =
          player_cards p := by
        unfold player_cards
        have := eraseIdx_cards hc
        rw [← this]
        abel
      rw [zones_def, zones_def]
      show zone_of_items gs.layout +
          players_cards (modify_player gs.players pid fun p => { p with hand := p.hand.eraseIdx idx }) +
          {c} = zone_of_items gs.layout + players_cards gs.players
      have : players_cards (modify_player gs.players pid fun p => { p with hand := p.hand.eraseIdx idx }) +
          {c} + player_cards p = players_cards gs.players + player_cards p := by
        calc players_cards (modify_player gs.players pid fun p => { p with hand := p.hand.eraseIdx idx }) +
              {c} + player_cards p
            = players_cards (modify_player gs.players pid fun p => { p with hand := p.hand.eraseIdx idx }) +
              player_cards p + {c} := by abel
          _ = players_cards gs.players +
              player_cards { p with hand := p.hand.eraseIdx idx } + {c} := by rw [hmod]
          _ = players_cards gs.players +
              (player_cards { p with hand := p.hand.eraseIdx idx } + {c}) := by abel
          _ = players_cards gs.players + player_cards p := by rw [hhand]
      have hcancel : players_cards (modify_player gs.players pid fun p =>
            { p with hand := p.hand.eraseIdx idx }) + {c} = players_cards gs.players :=
        add_right_cancel this
      rw [add_assoc, hcancel]

/-! ### Per-operation conservation lemmas -/

lemma mem_loose_iff {layout : List LayoutItem} {c : Card} :
    c ∈ get_loose_cards layout ↔ LayoutItem.loose c ∈ layout := by
  rw [get_loose_cards, List.mem_filterMap]
  constructor
  · rintro ⟨it, hit, hsome⟩
    cases it with
    | loose c' => simp at hsome; exact hsome ▸ hit
    | build b => simp at hsome
  · intro h
    exact ⟨LayoutItem.loose c, h, rfl⟩

lemma mem_builds_iff {layout : List LayoutItem} {b : Build} :
    b ∈ get_builds layout ↔ LayoutItem.build b ∈ layout := by
  rw [get_builds, List.mem_filterMap]
  constructor
  · rintro ⟨it, hit, hsome⟩
    cases it with
    | loose c' => simp at hsome
    | build b' => simp at hsome; exact hsome ▸ hit
  · intro h
    exact ⟨LayoutItem.build b, h, rfl⟩

lemma replace_first_zone {l : List LayoutItem} {x y : LayoutItem} (h : x ∈ l) :
    zone_of_items (replace_first l x y) + (item_cards x : Multiset Card) =
      zone_of_items l + (item_cards y : Multiset Card) := by
  induction l with
  | nil => simp at h
  | cons z zs ih =>
    by_cases hz : z = x
    · subst hz
      rw [replace_first, if_pos rfl, zone_of_items_cons, zone_of_items_cons]
      abel
    · rcases List.mem_cons.1 h with hx | hx
      · exact absurd hx.symm hz
      · rw [replace_first, if_neg hz, zone_of_items_cons, zone_of_items_cons,
          add_assoc, add_assoc, ih hx]

lemma replace_first_mem {l : List LayoutItem} {x y z : LayoutItem}
    (h : z ∈ replace_first l x y) : z ∈ l ∨ z = y := by
  induction l with
  | nil => simp [replace_first] at h
  | cons w ws ih =>
    by_cases hw : w = x
    · subst hw
      rw [replace_first, if_pos rfl] at h
      rcases List.mem_cons.1 h with rfl | h'
      · exact Or.inr rfl
      · exact Or.inl (List.mem_cons_of_mem _ h')
    · rw [replace_first, if_neg hw] at h
      rcases List.mem_cons.1 h with rfl | h'
      · exact Or.inl (List.mem_cons_self _ _)
      · rcases ih h' with h'' | h''
        · exact Or.inl (List.mem_cons_of_mem _ h'')
        · exact Or.inr h''

lemma execute_capture_eq_some {gs : GameState} {pid : ℕ} {played : Card}
    {group : List LayoutItem} {gs' : GameState}
    (h : execute_capture gs pid played group = some gs') :
    ∃ l', remove_group_run gs.layout group = Except.ok l' ∧
      gs' = { gs with
        layout := l'
        players :=
          modify_player (gs.players.map fun p => { p with last_capture := false }) pid
            fun p => { p with
              capture_pile := p.capture_pile ++ played :: cards_of_items group
              last_capture := true } } := by
  rw [execute_capture] at h
  by_cases hg : group = []
  · rw [if_pos hg] at h; exact absurd h (by simp)
  · rw [if_neg hg, execute_capture_run] at h
    cases hrun : remove_group_run gs.layout group with
    | error l => rw [hrun] at h; exact absurd h (by simp [Except.toOption])
    | ok l =>
      rw [hrun] at h
      refine ⟨l, rfl, ?_⟩
      simpa [Except.toOption] using h.symm

lemma zones_execute_capture {gs : GameState} {pid : ℕ} {played : Card}
    {group : List LayoutItem} {gs' : GameState}
    (hpid : pid < gs.players.length)
    (h : execute_capture gs pid played group = some gs') :
    zones gs' = zones gs + {played} := by
  obtain ⟨l', hrun, rfl⟩ := execute_capture_eq_some h
  have hperm := remove_group_run_ok_perm hrun
  have hzoi : zone_of_items gs.layout = zone_of_items group + zone_of_items l' := by
    rw [zone_of_items_perm hperm, zone_of_items_append]
  have hpid' : pid < (gs.players.map fun p => { p with last_capture := false }).length := by
    simpa using hpid
  have hmod := @players_cards_modify
    (gs.players.map fun p => { p with last_capture := false }) pid
    (fun p => { p with
      capture_pile := p.capture_pile ++ played :: cards_of_items group
      last_capture := true }) hpid'
  set q := (gs.players.map fun p => { p with last_capture := false }).getD pid default_player
    with hq
  have hpc : player_cards { q with
      capture_pile := q.capture_pile ++ played :: cards_of_items group
      last_capture := true } =
      player_cards q + ({played} + (cards_of_items group : Multiset Card)) := by
    unfold player_cards
    show (q.hand : Multiset Card) +
        ((q.capture_pile ++ played :: cards_of_items group : List Card) : Multiset Card) = _
    rw [← Multiset.coe_add]
    show (q.hand : Multiset Card) +
        ((q.capture_pile : Multiset Card) +
          ((played :: cards_of_items group : List Card) : Multiset Card)) = _
    rw [← Multiset.cons_coe, ← Multiset.singleton_add]
    abel
  rw [zones_def, zones_def]
  show zone_of_items l' +
      players_cards (modify_player (gs.players.map fun p => { p with last_capture := false }) pid
        fun p => { p with
          capture_pile := p.capture_pile ++ played :: cards_of_items group
          last_capture := true }) =
    zone_of_items gs.layout + players_cards gs.players + {played}
  have key := hmod
  rw [hpc] at key
  have hflag := players_cards_map_flag gs.players
  -- players_cards (modify ...) = players_cards gs.players + {played} + cards_of group
  have hmod' : players_cards (modify_player (gs.players.map fun p => { p with last_capture := false }) pid
      fun p => { p with
        capture_pile := p.capture_pile ++ played :: cards_of_items group
        last_capture := true }) =
      players_cards gs.players + ({played} + (cards_of_items group : Multiset Card)) := by
    have := key
    rw [hflag] at this
    calc players_cards (modify_player (gs.players.map fun p => { p with last_capture := false }) pid
          fun p => { p with
            capture_pile := p.capture_pile ++ played :: cards_of_items group
            last_capture := true })
        = players_cards (modify_player (gs.players.map fun p => { p with last_capture := false }) pid
            fun p => { p with
              capture_pile := p.capture_pile ++ played :: cards_of_items group
              last_capture := true }) + player_cards q - player_cards q := by
          rw [add_tsub_cancel_right]
      _ = players_cards gs.players + (player_cards q + ({played} + ↑(cards_of_items group))) -
            player_cards q := by rw [this]
      _ = players_cards gs.players + ({played} + ↑(cards_of_items group)) := by
          rw [show players_cards gs.players + (player_cards q + ({played} + ↑(cards_of_items group))) =
            players_cards gs.players + ({played} + ↑(cards_of_items group)) + player_cards q by abel,
            add_tsub_cancel_right]
  rw [hmod', hzoi, cards_of_items_coe]
  abel

lemma zones_execute_build_single {gs : GameState} {pid : ℕ} {played : Card}
    {cfg : BuildConfig} {gs' : GameState}
    (h : execute_build_single gs pid played cfg = some gs') :
    zones gs' = zones gs + {played} := by
  rw [execute_build_single] at h
  cases hrun : remove_group_run gs.layout (cfg.cards.map LayoutItem.loose) with
  | error l => rw [hrun] at h; exact absurd h (by simp)
  | ok l =>
    rw [hrun] at h
    injection h with h
    subst h
    have hperm := remove_group_run_ok_perm hrun
    have hzoi : zone_of_items gs.layout =
        (cfg.cards : Multiset Card) + zone_of_items l := by
      rw [zone_of_items_perm hperm, zone_of_items_append, zone_of_items_map_loose]
    rw [zones_def, zones_def]
    show zone_of_items (l ++ [LayoutItem.build ⟨cfg.cards ++ [played], cfg.total_value, pid, false⟩]) +
      players_cards gs.players = zone_of_items gs.layout + players_cards gs.players + {played}
    rw [zone_of_items_append, hzoi]
    have : zone_of_items [LayoutItem.build ⟨cfg.cards ++ [played], cfg.total_value, pid, false⟩] =
        (cfg.cards : Multiset Card) + {played} := by
      rw [zone_of_items_cons, zone_of_items_nil]
      show ((cfg.cards ++ [played] : List Card) : Multiset Card) + 0 = _
      rw [← Multiset.coe_add, add_zero]
      rfl
    rw [this]
    abel

lemma zones_execute_change {gs : GameState} {pid : ℕ} {played : Card}
    {b : Build} {t : ℕ} (hb : LayoutItem.build b ∈ gs.layout) :
    zones (execute_change_build gs pid played b t) = zones gs + {played} := by
  rw [zones_def, zones_def, execute_change_build]
  show zone_of_items (replace_first gs.layout (LayoutItem.build b)
      (LayoutItem.build ⟨b.cards ++ [played], t, pid, b.is_augmented⟩)) + players_cards gs.players =
    zone_of_items gs.layout + players_cards gs.players + {played}
  have hrep := replace_first_zone
    (y := LayoutItem.build ⟨b.cards ++ [played], t, pid, b.is_augmented⟩) hb
  have hy : (item_cards (LayoutItem.build ⟨b.cards ++ [played], t, pid, b.is_augmented⟩) :
      Multiset Card) = (item_cards (LayoutItem.build b) : Multiset Card) + {played} := by
    show ((b.cards ++ [played] : List Card) : Multiset Card) = (b.cards : Multiset Card) + {played}
    rw [← Multiset.coe_add]
    rfl
  rw [hy] at hrep
  have := add_right_cancel (b := (item_cards (LayoutItem.build b) : Multiset Card))
    (by rw [← add_assoc] at hrep; exact hrep.trans (by abel) :
      zone_of_items (replace_first gs.layout (LayoutItem.build b)
        (LayoutItem.build ⟨b.cards ++ [played], t, pid, b.is_augmented⟩)) +
        (item_cards (LayoutItem.build b) : Multiset Card) =
      zone_of_items gs.layout + {played} + (item_cards (LayoutItem.build b) : Multiset Card))
  rw [this]
  abel

lemma zones_discard (gs : GameState) (played : Card) :
    zones (discard_card gs played) = zones gs + {played} := by
  rw [zones_def, zones_def, discard_card]
  show zone_of_items (gs.layout ++ [LayoutItem.loose played]) + players_cards gs.players = _
  rw [zone_of_items_append, zone_of_items_cons, zone_of_items_nil]
  show zone_of_items gs.layout + (({played} : Multiset Card) + 0) + players_cards gs.players = _
  abel

lemma zones_execute_augment_loose {gs : GameState} {played : Card}
    {b : Build} {aug : Card}
    (hb : LayoutItem.build b ∈ gs.layout) (haug : LayoutItem.loose aug ∈ gs.layout) :
    zones (execute_augment_own gs played b aug) = zones gs + {played} := by
  rw [zones_def, zones_def, execute_augment_own]
  have hmem : aug ∈ get_loose_cards gs.layout := mem_loose_iff.2 haug
  rw [if_pos hmem, remove_first_eq_some_of_mem haug, Option.getD_some]
  set l₁ := gs.layout.erase (LayoutItem.loose aug) with hl₁
  have hperm : gs.layout.Perm (LayoutItem.loose aug :: l₁) :=
    remove_first_perm (remove_first_eq_some_of_mem haug)
  have hb₁ : LayoutItem.build b ∈ l₁ := by
    have := (hperm.mem_iff).1 hb
    rcases List.mem_cons.1 this with hcontra | h'
    · exact absurd hcontra (by simp)
    · exact h'
  have hzoi₁ : zone_of_items gs.layout = {aug} + zone_of_items l₁ := by
    rw [zone_of_items_perm hperm, zone_of_items_cons]
    rfl
  have hrep := replace_first_zone
    (y := LayoutItem.build ⟨b.cards ++ [played, aug], b.total_value, b.owner, true⟩) hb₁
  have hy : (item_cards (LayoutItem.build ⟨b.cards ++ [played, aug], b.total_value, b.owner, true⟩) :
      Multiset Card) = (item_cards (LayoutItem.build b) : Multiset Card) + ({played} + {aug}) := by
    show ((b.cards ++ [played, aug] : List Card) : Multiset Card) = _
    rw [← Multiset.coe_add]
    show (b.cards : Multiset Card) + ((played :: [aug] : List Card) : Multiset Card) = _
    rw [← Multiset.cons_coe, ← Multiset.singleton_add]
    rfl
  rw [hy] at hrep
  have hfin : zone_of_items (replace_first l₁ (LayoutItem.build b)
      (LayoutItem.build ⟨b.cards ++ [played, aug], b.total_value, b.owner, true⟩)) =
      zone_of_items l₁ + ({played} + {aug}) := by
    have := add_right_cancel (b := (item_cards (LayoutItem.build b) : Multiset Card))
      (hrep.trans (by abel) :
        zone_of_items (replace_first l₁ (LayoutItem.build b)
          (LayoutItem.build ⟨b.cards ++ [played, aug], b.total_value, b.owner, true⟩)) +
          (item_cards (LayoutItem.build b) : Multiset Card) =
        zone_of_items l₁ + ({played} + {aug}) + (item_cards (LayoutItem.build b) : Multiset Card))
    exact this
  show zone_of_items (replace_first l₁ (LayoutItem.build b)
      (LayoutItem.build ⟨b.cards ++ [played, aug], b.total_value, b.owner, true⟩)) +
      players_cards gs.players =
    zone_of_items gs.layout + players_cards gs.players + {played}
  rw [hfin, hzoi₁]
  abel

/-! ### Extracting facts from augmentation options -/

lemma can_augment_build_cases {played : Card} {pid : ℕ} {gs : GameState}
    {opt : AugmentOption} (h : opt ∈ can_augment_build played pid gs) :
    (∃ b t, opt = AugmentOption.change_opponent_build b t ∧
      b ∈ get_builds gs.layout ∧ t ∈ calculate_total (b.cards ++ [played])) ∨
    (∃ b aug, opt = AugmentOption.augment_own b aug ∧ b ∈ get_builds gs.layout ∧
      b.total_value ∈ aug.values) := by
  rw [can_augment_build, List.mem_flatMap] at h
  obtain ⟨b, hb, hmem⟩ := h
  rcases List.mem_append.1 hmem with h₁ | h₂
  · left
    have h₁' := h₁
    by_cases hcond : b.owner ≠ pid ∧
        (¬gs.partnerships.isSome ∨ ¬(are_partners gs.partnerships pid b.owner = true))
    · rw [if_pos hcond, List.mem_filterMap] at h₁'
      obtain ⟨t, ht, hopt⟩ := h₁'
      by_cases havail : t ∈ available_capture_values played
          ((gs.players.getD pid default_player).hand)
      · rw [if_pos havail] at hopt
        injection hopt with hopt
        exact ⟨b, t, hopt.symm, hb, ht⟩
      · rw [if_neg havail] at hopt
        exact absurd hopt (by simp)
    · rw [if_neg hcond] at h₁'
      exact absurd h₁' (by simp)
  · right
    have h₂' := h₂
    by_cases hcond : b.owner = pid ∨
        (gs.partnerships.isSome ∧ are_partners gs.partnerships pid b.owner = true)
    · rw [if_pos hcond, List.mem_flatMap] at h₂'
      obtain ⟨c, _, hcmem⟩ := h₂'
      rw [List.mem_filterMap] at hcmem
      obtain ⟨v, hv, hopt⟩ := hcmem
      by_cases hveq : v = b.total_value
      · rw [if_pos hveq] at hopt
        injection hopt with hopt
        exact ⟨b, c, hopt.symm, hb, hveq ▸ hv⟩
      · rw [if_neg hveq] at hopt
        exact absurd hopt (by simp)
    · rw [if_neg hcond] at h₂'
      exact absurd h₂' (by simp)

lemma change_mem_spec {played : Card} {pid : ℕ} {gs : GameState} {b : Build} {t : ℕ}
    (h : AugmentOption.change_opponent_build b t ∈ can_augment_build played pid gs) :
    b ∈ get_builds gs.layout ∧ t ∈ calculate_total (b.cards ++ [played]) := by
  rcases can_augment_build_cases h with ⟨b', t', heq, hb, ht⟩ | ⟨b', aug', heq, _, _⟩
  · injection heq with h₁ h₂
    subst h₁; subst h₂
    exact ⟨hb, ht⟩
  · exact absurd heq (by simp)

lemma augment_own_mem_spec {played : Card} {pid : ℕ} {gs : GameState}
    {b : Build} {aug : Card}
    (h : AugmentOption.augment_own b aug ∈ can_augment_build played pid gs) :
    b ∈ get_builds gs.layout := by
  rcases can_augment_build_cases h with ⟨b', t', heq, _, _⟩ | ⟨b', aug', heq, hb, _⟩
  · exact absurd heq (by simp)
  · injection heq with h₁ h₂
    subst h₁
    exact hb

/-! ### Conservation across one turn -/

lemma step_zones {gs gs' : GameState} {a : Act}
    (hs : Step gs a gs') (hg : loose_augment_only gs a) :
    zones gs' = zones gs := by
  cases hs with
  | capture pid idx group hplay hmem hexec =>
    obtain ⟨_, _, hpid, hlen, hz⟩ := play_from_hand_spec hplay
    rw [zones_execute_capture (by omega) hexec, hz]
  | create pid idx cfg hplay hmem hexec =>
    obtain ⟨_, _, hpid, hlen, hz⟩ := play_from_hand_spec hplay
    rw [zones_execute_build_single hexec, hz]
  | change pid idx b t hplay hmem =>
    obtain ⟨hlay, _, hpid, hlen, hz⟩ := play_from_hand_spec hplay
    have hb := mem_builds_iff.1 (change_mem_spec hmem).1
    rw [zones_execute_change hb, hz]
  | augment pid idx b aug hplay hmem =>
    obtain ⟨hlay, _, hpid, hlen, hz⟩ := play_from_hand_spec hplay
    have hb := mem_builds_iff.1 (augment_own_mem_spec hmem)
    have haug : LayoutItem.loose aug ∈ gs.layout := hg
    rw [zones_execute_augment_loose hb (hlay.symm ▸ haug), hz]
  | discard pid idx hplay =>
    obtain ⟨_, _, _, _, hz⟩ := play_from_hand_spec hplay
    rw [zones_discard, hz]

/-! ### Conservation of `setup_game` -/

lemma cut_deck_conserves {deck : List Card} (h : 4 ≤ deck.length) :
    ((cut_deck deck).1 : Multiset Card) + ((cut_deck deck).2 : Multiset Card) =
      (deck : Multiset Card) := by
  rw [cut_deck]
  have hm : 2 ≤ deck.length / 2 := by omega
  set m := deck.length / 2 with hmdef
  have hsplit₁ : deck = deck.take (m - 2) ++ deck.drop (m - 2) :=
    (List.take_append_drop _ _).symm
  have hsplit₂ : deck.drop (m - 2) =
      (deck.drop (m - 2)).take 4 ++ (deck.drop (m - 2)).drop 4 :=
    (List.take_append_drop _ _).symm
  have hdrop : (deck.drop (m - 2)).drop 4 = deck.drop (m + 2) := by
    rw [List.drop_drop]
    congr 1
    omega
  calc ((deck.drop (m - 2)).take 4 : Multiset Card) +
        ((deck.take (m - 2) ++ deck.drop (m + 2) : List Card) : Multiset Card)
      = ((deck.drop (m - 2)).take 4 : Multiset Card) +
        ((deck.take (m - 2) : Multiset Card) + (deck.drop (m + 2) : Multiset Card)) := by
        rw [← Multiset.coe_add]
    _ = (deck.take (m - 2) : Multiset Card) +
        (((deck.drop (m - 2)).take 4 : Multiset Card) +
          ((deck.drop (m - 2)).drop 4 : Multiset Card)) := by rw [hdrop]; abel
    _ = (deck.take (m - 2) : Multiset Card) + (deck.drop (m - 2) : Multiset Card) := by
        rw [Multiset.coe_add, ← hsplit₂]
    _ = (deck : Multiset Card) := by rw [Multiset.coe_add, ← hsplit₁]

lemma hands_cards_cons (h : List Card) (hs : List (List Card)) :
    hands_cards (h :: hs) = (h : Multiset Card) + hands_cards hs := by
  simp [hands_cards]

lemma hands_cards_set {hands : List (List Card)} {i : ℕ} {c : Card}
    (h : i < hands.length) :
    hands_cards (hands.set i (hands.getD i [] ++ [c])) = hands_cards hands + {c} := by
  induction hands generalizing i with
  | nil => simp at h
  | cons hd tl ih =>
    cases i with
    | zero =>
      rw [List.set]
      rw [hands_cards_cons, hands_cards_cons]
      show ((hd ++ [c] : List Card) : Multiset Card) + hands_cards tl = _
      rw [← Multiset.coe_add]
      show (hd : Multiset Card) + ((c :: [] : List Card) : Multiset Card) + hands_cards tl = _
      rw [← Multiset.cons_coe, ← Multiset.singleton_add, Multiset.coe_nil, add_zero]
      abel
    | succ k =>
      rw [List.set]
      rw [hands_cards_cons, hands_cards_cons]
      show (hd : Multiset Card) + hands_cards (tl.set k (tl.getD k [] ++ [c])) = _
      rw [ih (by simpa using h)]
      abel

lemma deal_cards_conserves {n : ℕ} (hn : 0 < n) :
    ∀ (cards : List Card) (k : ℕ) (hands : List (List Card)), hands.length = n →
      hands_cards (deal_cards n cards k hands) = hands_cards hands + (cards : Multiset Card) := by
  intro cards
  induction cards with
  | nil =>
    intro k hands _
    show hands_cards hands = hands_cards hands + ((([] : List Card)) : Multiset Card)
    simp
  | cons c cs ih =>
    intro k hands hlen
    rw [deal_cards]
    have hk : k % n < hands.length := by rw [hlen]; exact Nat.mod_lt _ hn
    rw [ih (k + 1) _ (by rw [List.length_set]; exact hlen), hands_cards_set hk]
    show hands_cards hands + {c} + (cs : Multiset Card) = _
    rw [← Multiset.cons_coe, ← Multiset.singleton_add]
    abel

lemma players_cards_of_hands (hands : List (List Card)) :
    players_cards (hands.map fun h =>
      { hand := h, capture_pile := [], last_capture := false }) = hands_cards hands := by
  induction hands with
  | nil => rfl
  | cons h hs ih =>
    rw [List.map_cons, players_cards_cons, hands_cards_cons, ih]
    show player_cards ⟨h, [], false⟩ + _ = _
    unfold player_cards
    show (h : Multiset Card) + (([] : List Card) : Multiset Card) + _ = _
    simp

lemma hands_cards_replicate (n : ℕ) : hands_cards (List.replicate n []) = 0 := by
  induction n with
  | zero => rfl
  | succ k ih => rw [List.replicate, hands_cards_cons, ih]; simp

/-- `setup_game` distributes exactly the given deck over the zones. -/
lemma setup_zones {n : ℕ} {ps : Option (List (ℕ × ℕ))} {deck : List Card}
    (hn : 0 < n) (hlen : 4 ≤ deck.length) :
    zones (setup_game n ps deck) = (deck : Multiset Card) := by
  rw [zones_def, setup_game]
  show zone_of_items ((cut_deck deck).1.map LayoutItem.loose) +
      players_cards ((deal_cards n (cut_deck deck).2.reverse 0 (List.replicate n [])).map fun h =>
        { hand := h, capture_pile := [], last_capture := false }) = _
  rw [zone_of_items_map_loose, players_cards_of_hands,
    deal_cards_conserves hn _ 0 _ (List.length_replicate _ _), hands_cards_replicate,
    zero_add]
  have hrev : ((cut_deck deck).2.reverse : Multiset Card) = ((cut_deck deck).2 : Multiset Card) :=
    Multiset.coe_eq_coe.2 (List.reverse_perm _)
  rw [hrev, cut_deck_conserves hlen]

/-! ### Build validity across one turn -/

lemma execute_build_single_eq_some {gs : GameState} {pid : ℕ} {played : Card}
    {cfg : BuildConfig} {gs' : GameState}
    (h : execute_build_single gs pid played cfg = some gs') :
    ∃ l', remove_group_run gs.layout (cfg.cards.map LayoutItem.loose) = Except.ok l' ∧
      gs' = { gs with layout :=
        l' ++ [LayoutItem.build ⟨cfg.cards ++ [played], cfg.total_value, pid, false⟩] } := by
  rw [execute_build_single] at h
  cases hrun : remove_group_run gs.layout (cfg.cards.map LayoutItem.loose) with
  | error l => rw [hrun] at h; exact absurd h (by simp)
  | ok l =>
    rw [hrun] at h
    injection h with h
    exact ⟨l, rfl, h.symm⟩

lemma step_builds_valid {gs gs' : GameState} {a : Act}
    (hs : Step gs a gs') (hg : no_own_augment gs a) (hv : builds_valid gs) :
    builds_valid gs' := by
  cases hs with
  | capture pid idx group hplay hmem hexec =>
    rename_i gs₁ c
    obtain ⟨hlay, _, _, _, _⟩ := play_from_hand_spec hplay
    obtain ⟨l', hrun, rfl⟩ := execute_capture_eq_some hexec
    intro b hb
    have hb' : LayoutItem.build b ∈ l' := mem_builds_iff.1 hb
    have hperm := remove_group_run_ok_perm hrun
    have hmem₁ : LayoutItem.build b ∈ gs₁.layout :=
      hperm.mem_iff.2 (List.mem_append.2 (Or.inr hb'))
    exact hv b (mem_builds_iff.2 (hlay ▸ hmem₁))
  | create pid idx cfg hplay hmem hexec =>
    rename_i gs₁ c
    obtain ⟨hlay, _, _, _, _⟩ := play_from_hand_spec hplay
    obtain ⟨l', hrun, rfl⟩ := execute_build_single_eq_some hexec
    intro b hb
    have hb' := mem_builds_iff.1 hb
    rcases List.mem_append.1 hb' with h₁ | h₂
    · have hperm := remove_group_run_ok_perm hrun
      have hmem₁ : LayoutItem.build b ∈ gs₁.layout :=
        hperm.mem_iff.2 (List.mem_append.2 (Or.inr h₁))
      exact hv b (mem_builds_iff.2 (hlay ▸ hmem₁))
    · have hbeq : b = ⟨cfg.cards ++ [c], cfg.total_value, pid, false⟩ := by
        simpa using h₂
      subst hbeq
      exact (mem_can_create_build.1 hmem).2.2.1
  | change pid idx b₀ t hplay hmem =>
    rename_i gs₁ c
    obtain ⟨hlay, _, _, _, _⟩ := play_from_hand_spec hplay
    intro b hb
    have hb' : LayoutItem.build b ∈ replace_first gs₁.layout (LayoutItem.build b₀)
        (LayoutItem.build ⟨b₀.cards ++ [c], t, pid, b₀.is_augmented⟩) :=
      mem_builds_iff.1 hb
    rcases replace_first_mem hb' with h₁ | h₂
    · exact hv b (mem_builds_iff.2 (hlay ▸ h₁))
    · have hbeq : b = ⟨b₀.cards ++ [c], t, pid, b₀.is_augmented⟩ := by simpa using h₂
      subst hbeq
      exact (change_mem_spec hmem).2
  | augment pid idx b₀ aug hplay hmem =>
    exact hg.elim
  | discard pid idx hplay =>
    rename_i gs₁ c
    obtain ⟨hlay, _, _, _, _⟩ := play_from_hand_spec hplay
    intro b hb
    have hb' : LayoutItem.build b ∈ gs₁.layout ++ [LayoutItem.loose c] :=
      mem_builds_iff.1 hb
    rcases List.mem_append.1 hb' with h₁ | h₂
    · exact hv b (mem_builds_iff.2 (hlay ▸ h₁))
    · simp at h₂

/-! ### Reachability helpers and the concrete five-turn trace -/

lemma ReachableFrom.mono {P Q : GameState → Act → Prop}
    (hpq : ∀ gs a, P gs a → Q gs a) {init gs : GameState}
    (h : ReachableFrom P init gs) : ReachableFrom Q init gs := by
  induction h with
  | refl => exact ReachableFrom.refl
  | tail hr hs hp ih => exact ReachableFrom.tail ih hs (hpq _ _ hp)

lemma ex_step1 : Step ex_gs0 Act.discard ex_gs1 := Step.discard 0 0 rfl

lemma ex_step2 : Step ex_gs1 (Act.capture [LayoutItem.loose ⟨.r9, .spades⟩]) ex_gs2 :=
  Step.capture 1 0 [LayoutItem.loose ⟨.r9, .spades⟩] rfl (by decide) rfl

lemma ex_step3 : Step ex_gs2 Act.discard ex_gs3 := Step.discard 1 0 rfl

lemma ex_step4 : Step ex_gs3 (Act.create ⟨[⟨.r4, .diamonds⟩], 9⟩) ex_gs4 :=
  Step.create 0 0 ⟨[⟨.r4, .diamonds⟩], 9⟩ rfl (by decide) rfl

lemma ex_step5 : Step ex_gs4 (Act.augment ex_build ⟨.r9, .spades⟩) ex_gs5 :=
  Step.augment 0 0 ex_build ⟨.r9, .spades⟩ rfl (by decide)

/-- The first four turns use no augmentation at all. -/
lemma ex_reach4 : ReachableFrom no_own_augment ex_gs0 ex_gs4 :=
  ReachableFrom.tail
    (ReachableFrom.tail
      (ReachableFrom.tail
        (ReachableFrom.tail ReachableFrom.refl ex_step1 trivial)
        ex_step2 trivial)
      ex_step3 trivial)
    ex_step4 trivial

/-- The full five-turn trace, ending with the pile-top augmentation. -/
lemma ex_reach5 : ReachableFrom (fun _ _ => True) ex_gs0 ex_gs5 :=
  ReachableFrom.tail (ex_reach4.mono fun _ _ _ => trivial) ex_step5 trivial

lemma get_builds_map_loose (cards : List Card) :
    get_builds (cards.map LayoutItem.loose) = [] := by
  induction cards with
  | nil => rfl
  | cons c cs ih => simp [get_builds] at ih ⊢

/-! ## Claim C1: card conservation -/

/-- Claim C1 (amended): in every state reachable from a set-up game by turns
whose own/partner-build augmentations take their augmenting card from the
loose layout, the multiset union of all zones equals the full 40- or 52-card
deck.  (The claim as stated, which also covers augmentation by an opponent's
pile-top card, is refuted by `conservation_cex`: that operation appends the
pile-top card to the build without removing it from the pile, duplicating
it.) -/
theorem conservation_amended (u : Bool) (n : ℕ) (ps : Option (List (ℕ × ℕ)))
    (deck : List Card) (gs : GameState)
    (hperm : deck.Perm (full_deck u)) (hn₂ : 2 ≤ n) (hn₄ : n ≤ 4)
    (hr : ReachableFrom loose_augment_only (setup_game n ps deck) gs) :
    zones gs = ((full_deck u : List Card) : Multiset Card) := by
  have hlen : 4 ≤ deck.length := by
    rw [hperm.length_eq]
    cases u <;> decide
  induction hr with
  | refl => rw [setup_zones (by omega) hlen, Multiset.coe_eq_coe.2 hperm]
  | tail hr hs hg ih => rw [step_zones hs hg, ih]

/-- Witness for the amended conservation claim at a concrete set-up game. -/
theorem conservation_amended_witness :
    zones (setup_game 2 none (full_deck true)) =
      ((full_deck true : List Card) : Multiset Card) :=
  conservation_amended true 2 none (full_deck true) _ (List.Perm.refl _)
    (by omega) (by omega) ReachableFrom.refl

/-- Counterexample to claim C1 as stated: a five-turn play of a shuffled
40-card deck reaches a state whose zones hold 41 cards — the own-build
augmentation took the opponent's pile-top 9♠ without removing it from the
capture pile. -/
theorem conservation_cex :
    ex_deck.Perm (full_deck true) ∧
    ReachableFrom (fun _ _ => True) (setup_game 2 none ex_deck) ex_gs5 ∧
    zones ex_gs5 ≠ ((full_deck true : List Card) : Multiset Card) :=
  ⟨by decide, ex_reach5, by decide⟩

/-! ## Claim C2: build validity -/

/-- Claim C2 (amended): every build present in a state reachable without
own/partner-build augmentations — i.e. after creations and opponent-build
value changes — has a `total_value` achievable from its member cards.  (The
claim as stated, which also covers own/partner-build augmentation, is refuted
by `build_validity_cex`: augmentation appends two cards while keeping
`total_value`.) -/
theorem build_validity_amended (n : ℕ) (ps : Option (List (ℕ × ℕ)))
    (deck : List Card) (gs : GameState)
    (hr : ReachableFrom no_own_augment (setup_game n ps deck) gs) :
    builds_valid gs := by
  induction hr with
  | refl =>
    intro b hb
    rw [setup_game] at hb
    have : get_builds ((cut_deck deck).1.map LayoutItem.loose) = [] :=
      get_builds_map_loose _
    rw [this] at hb
    exact absurd hb (List.not_mem_nil b)
  | tail hr hs hg ih => exact step_builds_valid hs hg ih

/-- Witness for the amended build-validity claim: after the four-turn trace
that created the 9-build from `[4♦] + 5♦`, every build in the layout is
valid. -/
theorem build_validity_amended_witness : builds_valid ex_gs4 :=
  build_validity_amended 2 none ex_deck ex_gs4 ex_reach4

/-- Counterexample to claim C2 as stated: after the five-turn trace the
augmented build pins total 9 but its member cards `[4♦, 5♦, 9♦, 9♠]` resolve
only to 27. -/
theorem build_validity_cex :
    ReachableFrom (fun _ _ => True) (setup_game 2 none ex_deck) ex_gs5 ∧
    LayoutItem.build ex_bad_build ∈ ex_gs5.layout ∧
    ex_bad_build.total_value ∉ calculate_total ex_bad_build.cards :=
  ⟨ex_reach5, by decide, by decide⟩

/-! ## Claim C6: value resolution -/

/-- Claim C6: `calculate_total` returns exactly the sums obtained by choosing
one value from each card's value list (every card contributes); the empty
sequence resolves to `{0}`, one Ace to `{1, 14}` and two Aces to
`{2, 15, 28}`. -/
theorem calculate_total_characterization :
    (∀ (cards : List Card) (t : ℕ),
      t ∈ calculate_total cards ↔
        ∃ vs : List ℕ, List.Forall₂ (fun v c => v ∈ Card.values c) vs cards ∧ vs.sum = t) ∧
    calculate_total [] = [0] ∧
    calculate_total [⟨.rA, .spades⟩] = [1, 14] ∧
    calculate_total [⟨.rA, .spades⟩, ⟨.rA, .hearts⟩] = [2, 15, 28] :=
  ⟨fun _ _ => mem_calculate_total, by decide, by decide, by decide⟩

/-! ## Claim C3: capture enumeration -/

/-- Claim C3: `find_captures` returns exactly (1) single loose cards of equal
numeric value and single builds (any owner) of equal total, (2) loose-card
subsets of size at least two whose resolved totals contain the played value,
and (3) one-build-plus-one-loose-card pairs whose combined value matches; no
group holds two builds or a build with more than one loose card. -/
theorem find_captures_characterization :
    (∀ (played : Card) (layout : List LayoutItem) (g : List LayoutItem),
      g ∈ find_captures played layout ↔
        (∃ c ∈ get_loose_cards layout,
          c.numeric_value = played.numeric_value ∧ g = [LayoutItem.loose c]) ∨
        (∃ b ∈ get_builds layout,
          b.total_value = played.numeric_value ∧ g = [LayoutItem.build b]) ∨
        (∃ cs : List Card, cs.Sublist (get_loose_cards layout) ∧ 2 ≤ cs.length ∧
          played.numeric_value ∈ calculate_total cs ∧ g = cs.map LayoutItem.loose) ∨
        (∃ b ∈ get_builds layout, ∃ c ∈ get_loose_cards layout,
          (∃ t ∈ calculate_total [c], t + b.total_value = played.numeric_value) ∧
          g = [LayoutItem.loose c, LayoutItem.build b])) ∧
    (∀ (played : Card) (layout : List LayoutItem) (g : List LayoutItem),
      g ∈ find_captures played layout →
        g.countP is_build_item ≤ 1 ∧
        ((∃ b, LayoutItem.build b ∈ g) → g.length ≤ 2)) := by
  refine ⟨fun _ _ _ => mem_find_captures, ?_⟩
  intro played layout g hg
  rcases mem_find_captures.1 hg with ⟨c, _, _, rfl⟩ | ⟨b, _, _, rfl⟩ |
    ⟨cs, _, _, _, rfl⟩ | ⟨b, _, c, _, _, rfl⟩
  · refine ⟨by simp [is_build_item], ?_⟩
    rintro ⟨b, hb⟩
    simp
  · exact ⟨by simp [is_build_item], fun _ => by simp⟩
  · refine ⟨?_, ?_⟩
    · rw [List.countP_map]
      have : ∀ x ∈ cs, ¬((is_build_item ∘ LayoutItem.loose) x = true) := by
        intro x _
        simp [is_build_item]
      rw [List.countP_eq_zero.2 this]
      omega
    · rintro ⟨b, hb⟩
      obtain ⟨c', _, hc'⟩ := List.mem_map.1 hb
      exact absurd hc' (by simp)
  · exact ⟨by simp [is_build_item], fun _ => by simp⟩

/-- Witness for the group-shape consequence of `find_captures` at a concrete
layout. -/
theorem find_captures_characterization_witness :
    ([LayoutItem.loose ⟨.r7, .hearts⟩] : List LayoutItem).countP is_build_item ≤ 1 ∧
    ((∃ b, LayoutItem.build b ∈ ([LayoutItem.loose ⟨.r7, .hearts⟩] : List LayoutItem)) →
      ([LayoutItem.loose ⟨.r7, .hearts⟩] : List LayoutItem).length ≤ 2) :=
  find_captures_characterization.2 ⟨.r7, .clubs⟩ [LayoutItem.loose ⟨.r7, .hearts⟩]
    [LayoutItem.loose ⟨.r7, .hearts⟩] (by decide)

/-! ## Claim C5: build-creation enumeration -/

/-- Claim C5: `can_create_build` offers, per non-empty loose-card subset, at
most one option; an option for a subset exists exactly when the player holds
another hand card matching some achievable total of `subset + played`, and it
carries the first such total of `calculate_total`'s (ascending) output.  In
the concrete scenario — layout `[3♦]`, hand `[5♣, 8♥]`, playing `5♣` — the
single offer is `{cards := [3♦], total_value := 8}`. -/
theorem can_create_build_characterization :
    (∀ (played : Card) (hand : List Card) (layout : List LayoutItem) (cfg : BuildConfig),
      cfg ∈ can_create_build played hand layout ↔
        cfg.cards.Sublist (get_loose_cards layout) ∧ cfg.cards ≠ [] ∧
        cfg.total_value ∈ calculate_total (cfg.cards ++ [played]) ∧
        (∃ c ∈ hand, c ≠ played ∧ c.numeric_value = cfg.total_value) ∧
        (∀ t ∈ calculate_total (cfg.cards ++ [played]),
          (∃ c ∈ hand, c ≠ played ∧ c.numeric_value = t) → cfg.total_value ≤ t)) ∧
    (∀ (played : Card) (hand : List Card) (layout : List LayoutItem) (cs : List Card),
      (get_loose_cards layout).Nodup →
      ((can_create_build played hand layout).countP fun cfg => cfg.cards == cs) ≤ 1) ∧
    can_create_build ⟨.r5, .clubs⟩ [⟨.r5, .clubs⟩, ⟨.r8, .hearts⟩]
      [LayoutItem.loose ⟨.r3, .diamonds⟩] = [⟨[⟨.r3, .diamonds⟩], 8⟩] :=
  ⟨fun _ _ _ _ => mem_can_create_build,
   fun _ _ _ _ hnd => countP_create_le_one hnd,
   by decide⟩

/-- Witness for the per-subset uniqueness of build offers at the concrete
scenario. -/
theorem can_create_build_characterization_witness :
    ((can_create_build ⟨.r5, .clubs⟩ [⟨.r5, .clubs⟩, ⟨.r8, .hearts⟩]
        [LayoutItem.loose ⟨.r3, .diamonds⟩]).countP
      fun cfg => cfg.cards == [⟨.r3, .diamonds⟩]) ≤ 1 :=
  can_create_build_characterization.2.1 ⟨.r5, .clubs⟩
    [⟨.r5, .clubs⟩, ⟨.r8, .hearts⟩] [LayoutItem.loose ⟨.r3, .diamonds⟩]
    [⟨.r3, .diamonds⟩] (by decide)

/-! ## Claim C10: sortedness of totals and minimality of the offered total -/

/-- Claim C10: `calculate_total` is strictly ascending (so duplicate-free),
hence the first qualifying total chosen by `can_create_build` for a subset is
the numerically smallest achievable total matched by a hand card. -/
theorem calculate_total_sorted_min :
    (∀ cards : List Card, (calculate_total cards).Sorted (· < ·)) ∧
    (∀ (played : Card) (hand : List Card) (layout : List LayoutItem) (cfg : BuildConfig),
      cfg ∈ can_create_build played hand layout →
      ∀ t ∈ calculate_total (cfg.cards ++ [played]),
        (∃ c ∈ hand, c ≠ played ∧ c.numeric_value = t) → cfg.total_value ≤ t) :=
  ⟨calculate_total_sorted_lt',
   fun _ _ _ _ h => (mem_can_create_build.1 h).2.2.2.2⟩

/-- Witness: in the scenario the offered total 8 is minimal among qualifying
totals. -/
theorem calculate_total_sorted_min_witness :
    (⟨[⟨.r3, .diamonds⟩], 8⟩ : BuildConfig).total_value ≤ 8 :=
  calculate_total_sorted_min.2 ⟨.r5, .clubs⟩ [⟨.r5, .clubs⟩, ⟨.r8, .hearts⟩]
    [LayoutItem.loose ⟨.r3, .diamonds⟩] ⟨[⟨.r3, .diamonds⟩], 8⟩ (by decide) 8 (by decide)
    ⟨⟨.r8, .hearts⟩, by decide, by decide, by decide⟩

/-! ## Claim C4: capture execution postcondition -/

/-- Claim C4: when every (distinct) item of a non-empty chosen group is
present in the (duplicate-free) layout, `execute_capture` succeeds; the group
items leave the layout and nothing else in it changes, the acting player's
pile gains exactly the played card followed by the captured cards (builds
exploded) in order, the acting player's `last_capture` is set and everyone
else's is cleared, and no hand changes. -/
theorem execute_capture_postcondition
    (gs : GameState) (pid : ℕ) (played : Card) (group : List LayoutItem)
    (hpid : pid < gs.players.length)
    (hne : group ≠ []) (hgnd : group.Nodup) (hlnd : gs.layout.Nodup)
    (hsub : ∀ x ∈ group, x ∈ gs.layout) :
    ∃ gs', execute_capture gs pid played group = some gs' ∧
      (∀ x ∈ group, x ∉ gs'.layout) ∧
      gs'.layout = gs.layout.filter (fun x => x ∉ group) ∧
      (gs'.players.getD pid default_player).capture_pile =
        (gs.players.getD pid default_player).capture_pile ++ played :: cards_of_items group ∧
      (gs'.players.getD pid default_player).last_capture = true ∧
      (gs'.players.getD pid default_player).hand =
        (gs.players.getD pid default_player).hand ∧
      (∀ j, j < gs.players.length → j ≠ pid →
        (gs'.players.getD j default_player).capture_pile =
          (gs.players.getD j default_player).capture_pile ∧
        (gs'.players.getD j default_player).hand =
          (gs.players.getD j default_player).hand ∧
        (gs'.players.getD j default_player).last_capture = false) := by
  have hrun := remove_group_run_ok_of_nodup hlnd hgnd hsub
  refine ⟨{ gs with
      layout := gs.layout.filter fun x => x ∉ group
      players := modify_player (gs.players.map fun p => { p with last_capture := false }) pid
        fun p => { p with
          capture_pile := p.capture_pile ++ played :: cards_of_items group
          last_capture := true } }, ?_, ?_, rfl, ?_, ?_, ?_, ?_⟩
  · rw [execute_capture, if_neg hne, execute_capture_run, hrun]
    rfl
  · intro x hx hmem
    rw [List.mem_filter] at hmem
    exact absurd hx (by simpa using hmem.2)
  · have hpid' : pid < (gs.players.map fun p => { p with last_capture := false }).length := by
      simpa using hpid
    show ((modify_player (gs.players.map fun p => { p with last_capture := false }) pid
        fun p => { p with
          capture_pile := p.capture_pile ++ played :: cards_of_items group
          last_capture := true }).getD pid default_player).capture_pile = _
    rw [modify_player_getD_self hpid']
    show ((gs.players.map fun p => { p with last_capture := false }).getD pid
        default_player).capture_pile ++ played :: cards_of_items group = _
    rw [(@getD_map_flag gs.players pid).2.1]
  · have hpid' : pid < (gs.players.map fun p => { p with last_capture := false }).length := by
      simpa using hpid
    show ((modify_player (gs.players.map fun p => { p with last_capture := false }) pid
        fun p => { p with
          capture_pile := p.capture_pile ++ played :: cards_of_items group
          last_capture := true }).getD pid default_player).last_capture = true
    rw [modify_player_getD_self hpid']
  · have hpid' : pid < (gs.players.map fun p => { p with last_capture := false }).length := by
      simpa using hpid
    show ((modify_player (gs.players.map fun p => { p with last_capture := false }) pid
        fun p => { p with
          capture_pile := p.capture_pile ++ played :: cards_of_items group
          last_capture := true }).getD pid default_player).hand = _
    rw [modify_player_getD_self hpid']
    show ((gs.players.map fun p => { p with last_capture := false }).getD pid
        default_player).hand = _
    rw [(@getD_map_flag gs.players pid).1]
  · intro j _ hj
    rw [modify_player_getD_ne hj]
    exact ⟨(@getD_map_flag gs.players j).2.1,
      (@getD_map_flag gs.players j).1,
      (@getD_map_flag gs.players j).2.2⟩

/-- Witness for the capture postcondition at a concrete two-player state. -/
theorem execute_capture_postcondition_witness :
    ∃ gs', execute_capture
        ⟨[LayoutItem.loose ⟨.r3, .spades⟩, LayoutItem.loose ⟨.r4, .diamonds⟩],
         [default_player, default_player], none⟩
        0 ⟨.r3, .hearts⟩ [LayoutItem.loose ⟨.r3, .spades⟩] = some gs' ∧
      (∀ x ∈ [LayoutItem.loose ⟨.r3, .spades⟩], x ∉ gs'.layout) ∧
      gs'.layout =
        [LayoutItem.loose ⟨.r3, .spades⟩, LayoutItem.loose ⟨.r4, .diamonds⟩].filter
          (fun x => x ∉ [LayoutItem.loose ⟨.r3, .spades⟩]) ∧
      (gs'.players.getD 0 default_player).capture_pile =
        ([default_player, default_player].getD 0 default_player).capture_pile ++
          ⟨.r3, .hearts⟩ :: cards_of_items [LayoutItem.loose ⟨.r3, .spades⟩] ∧
      (gs'.players.getD 0 default_player).last_capture = true ∧
      (gs'.players.getD 0 default_player).hand =
        ([default_player, default_player].getD 0 default_player).hand ∧
      (∀ j, j < 2 → j ≠ 0 →
        (gs'.players.getD j default_player).capture_pile =
          ([default_player, default_player].getD j default_player).capture_pile ∧
        (gs'.players.getD j default_player).hand =
          ([default_player, default_player].getD j default_player).hand ∧
        (gs'.players.getD j default_player).last_capture = false) :=
  execute_capture_postcondition
    ⟨[LayoutItem.loose ⟨.r3, .spades⟩, LayoutItem.loose ⟨.r4, .diamonds⟩],
     [default_player, default_player], none⟩
    0 ⟨.r3, .hearts⟩ [LayoutItem.loose ⟨.r3, .spades⟩]
    (by decide) (by decide) (by decide) (by decide) (by decide)

/-! ## Claim C7: stale-option handling -/

/-- Claim C7 fails on the code: when the second item of the chosen group is no
longer in the layout, `layout.remove` raises `ValueError` only after the first
item was already removed.  At the raise the layout has lost 7♥, which now sits
in no zone at all: the state is not left unchanged and the failure is an
escaping exception rather than a reported recoverable result (and `play_turn`
catches `ValueError` and silently discards the played card instead). -/
theorem stale_capture_mutates_state :
    execute_capture_run stale_state 0 ⟨.r7, .clubs⟩
        [LayoutItem.loose ⟨.r7, .hearts⟩, LayoutItem.loose ⟨.r3, .spades⟩] =
      Except.error stale_state_after ∧
    stale_state_after ≠ stale_state ∧
    zones stale_state_after + {⟨.r7, .hearts⟩} = zones stale_state :=
  ⟨rfl, by decide, by decide⟩

/-! ## Claim C8: end-of-hand remainder -/

lemma findIdx?_of_unique {ps : List Player} {i : ℕ}
    (hi : i < ps.length)
    (ht : (ps.getD i default_player).last_capture = true)
    (ho : ∀ j, j < ps.length → j ≠ i → (ps.getD j default_player).last_capture = false) :
    (ps.findIdx? fun p => p.last_capture) = some i := by
  induction ps generalizing i with
  | nil => simp at hi
  | cons p ps ih =>
    cases i with
    | zero =>
      have hp : p.last_capture = true := ht
      simp [List.findIdx?_cons, hp]
    | succ k =>
      have hp : p.last_capture = false := ho 0 (by simp) (by omega)
      have hk : k < ps.length := by simpa using hi
      have hrec := ih hk ht fun j hj hji =>
        ho (j + 1) (by simpa using hj) (by omega)
      simp only [List.findIdx?_cons, hp, if_neg Bool.false_ne_true,
        List.findIdx?_succ, hrec]
      rfl

lemma findIdx?_of_none {ps : List Player}
    (h : ∀ p ∈ ps, p.last_capture = false) :
    (ps.findIdx? fun p => p.last_capture) = none := by
  induction ps with
  | nil => rfl
  | cons p ps ih =>
    have hp : p.last_capture = false := h p (List.mem_cons_self _ _)
    simp only [List.findIdx?_cons, hp, if_neg Bool.false_ne_true, List.findIdx?_succ,
      ih fun q hq => h q (List.mem_cons_of_mem _ hq)]
    rfl

/-- Claim C8: with all hands empty, the unique player with `last_capture` set
receives every remaining layout card (builds exploded) and the layout is
cleared, every other pile unchanged; with nobody flagged, no pile changes. -/
theorem end_of_hand_remainder :
    (∀ (gs : GameState) (i : ℕ),
      (∀ p ∈ gs.players, p.hand = []) →
      i < gs.players.length →
      (gs.players.getD i default_player).last_capture = true →
      (∀ j, j < gs.players.length → j ≠ i →
        (gs.players.getD j default_player).last_capture = false) →
      ((end_of_hand_cleanup gs).players.getD i default_player).capture_pile =
        (gs.players.getD i default_player).capture_pile ++ cards_of_items gs.layout ∧
      (end_of_hand_cleanup gs).layout = [] ∧
      (∀ j, j ≠ i →
        ((end_of_hand_cleanup gs).players.getD j default_player).capture_pile =
          (gs.players.getD j default_player).capture_pile)) ∧
    (∀ gs : GameState,
      (∀ p ∈ gs.players, p.last_capture = false) →
      ∀ j, ((end_of_hand_cleanup gs).players.getD j default_player).capture_pile =
        (gs.players.getD j default_player).capture_pile) := by
  constructor
  · intro gs i _ hi ht ho
    have hcl : end_of_hand_cleanup gs =
        (if gs.layout = [] then gs
         else { gs with
           layout := []
           players := modify_player gs.players i fun p =>
             { p with capture_pile := p.capture_pile ++ cards_of_items gs.layout } }) := by
      rw [end_of_hand_cleanup, findIdx?_of_unique hi ht ho]
    rw [hcl]
    by_cases hlay : gs.layout = []
    · rw [if_pos hlay]
      refine ⟨?_, hlay, fun j _ => rfl⟩
      rw [hlay]
      show (gs.players.getD i default_player).capture_pile =
        (gs.players.getD i default_player).capture_pile ++ []
      rw [List.append_nil]
    · rw [if_neg hlay]
      refine ⟨?_, rfl, ?_⟩
      · show ((modify_player gs.players i fun p =>
            { p with capture_pile := p.capture_pile ++ cards_of_items gs.layout }).getD i
            default_player).capture_pile = _
        rw [modify_player_getD_self hi]
      · intro j hj
        show ((modify_player gs.players i fun p =>
            { p with capture_pile := p.capture_pile ++ cards_of_items gs.layout }).getD j
            default_player).capture_pile = _
        rw [modify_player_getD_ne hj]
  · intro gs h j
    have hcl : end_of_hand_cleanup gs = gs := by
      rw [end_of_hand_cleanup, findIdx?_of_none h]
    rw [hcl]

/-- Witness for the end-of-hand remainder at a concrete two-player state: the
flagged player 0 collects the loose 6♥ and the layout empties. -/
theorem end_of_hand_remainder_witness :
    (((end_of_hand_cleanup
        ⟨[LayoutItem.loose ⟨.r6, .hearts⟩],
         [⟨[], [⟨.r2, .hearts⟩], true⟩, default_player], none⟩).players.getD 0
        default_player).capture_pile =
      (([⟨[], [⟨.r2, .hearts⟩], true⟩, default_player] :
          List Player).getD 0 default_player).capture_pile ++
        cards_of_items [LayoutItem.loose ⟨.r6, .hearts⟩] ∧
    (end_of_hand_cleanup
        ⟨[LayoutItem.loose ⟨.r6, .hearts⟩],
         [⟨[], [⟨.r2, .hearts⟩], true⟩, default_player], none⟩).layout = [] ∧
    (∀ j, j ≠ 0 →
      ((end_of_hand_cleanup
          ⟨[LayoutItem.loose ⟨.r6, .hearts⟩],
           [⟨[], [⟨.r2, .hearts⟩], true⟩, default_player], none⟩).players.getD j
          default_player).capture_pile =
        (([⟨[], [⟨.r2, .hearts⟩], true⟩, default_player] :
            List Player).getD j default_player).capture_pile)) :=
  end_of_hand_remainder.1
    ⟨[LayoutItem.loose ⟨.r6, .hearts⟩],
     [⟨[], [⟨.r2, .hearts⟩], true⟩, default_player], none⟩
    0 (by decide) (by decide) (by decide) (by decide)

/-! ## Claim C9: special-card scoring counts hand cards -/

lemma has_card_iff {p : Player} {c : Card} : has_card p c = true ↔ c ∈ p.hand := by
  rw [has_card, List.any_eq_true]
  constructor
  · rintro ⟨x, hx, hxc⟩
    rwa [show x = c from by simpa using hxc] at hx
  · intro h
    exact ⟨c, h, by simp⟩

lemma special_score_eq (p : Player) :
    special_score p =
      (if spy_two ∈ p.capture_pile ∨ spy_two ∈ p.hand then 1 else 0) +
      (if big_ten ∈ p.capture_pile ∨ big_ten ∈ p.hand then 2 else 0) +
      p.capture_pile.countP (fun c => c.rank == Rank.rA) := by
  rw [special_score]
  have h1 : (has_card p spy_two = true ∨ spy_two ∈ p.capture_pile) ↔
      (spy_two ∈ p.capture_pile ∨ spy_two ∈ p.hand) := by
    rw [has_card_iff]
    tauto
  have h2 : (has_card p big_ten = true ∨ big_ten ∈ p.capture_pile) ↔
      (big_ten ∈ p.capture_pile ∨ big_ten ∈ p.hand) := by
    rw [has_card_iff]
    tauto
  rw [if_congr h1 rfl rfl, if_congr h2 rfl rfl]

lemma range_map_getD {n i : ℕ} (f : ℕ → ℕ) (h : i < n) :
    ((List.range n).map f).getD i 0 = f i := by
  have hlen : i < ((List.range n).map f).length := by simpa using h
  rw [List.getD_eq_getElem _ _ hlen, List.getElem_map, List.getElem_range]

lemma sum_map_mul_add (l : List ScoreKey) (c a b : ScoreKey → ℕ) :
    (l.map fun k => c k * (a k + b k)).sum =
      (l.map fun k => c k * a k).sum + (l.map fun k => c k * b k).sum := by
  induction l with
  | nil => rfl
  | cons k ks ih =>
    simp only [List.map_cons, List.sum_cons, ih]
    rw [Nat.mul_add]
    omega

/-- Claim C9: each player's score from `calculate_scores` splits exactly into
the majority part — computed from the capture piles alone and zero outside
the 11-point mode — plus the special-card part of the player's key (the bare
id, or the partnership pair crediting both partners), in which the 2♠ point
and the 10♦ points are awarded when the card is in a key member's capture
pile **or still in that member's hand**, while the per-Ace points count only
capture piles. -/
theorem special_card_scoring :
    ∀ (partnerships : Option (List (ℕ × ℕ))) (players : List Player) (i : ℕ),
      i < players.length →
      (calculate_scores partnerships players).getD i 0 =
        ((score_keys partnerships players).map fun k =>
          (ScoreKey.members k).count i *
            (if partnerships.isSome ∨ players.length = 2
             then majority_award (tally partnerships players count_cards)
                    (score_keys partnerships players) k +
                  majority_award (tally partnerships players count_spades)
                    (score_keys partnerships players) k
             else 0)).sum +
        ((score_keys partnerships players).map fun k =>
          (ScoreKey.members k).count i *
            ((players.enum.filter fun ip =>
                player_key partnerships ip.1 == k).map fun ip =>
              ((if spy_two ∈ ip.2.capture_pile ∨ spy_two ∈ ip.2.hand then 1 else 0) +
               (if big_ten ∈ ip.2.capture_pile ∨ big_ten ∈ ip.2.hand then 2 else 0) +
               ip.2.capture_pile.countP fun c => c.rank == Rank.rA)).sum).sum := by
  intro partnerships players i hi
  have hB : ∀ k, tally partnerships players special_score k =
      ((players.enum.filter fun ip =>
          player_key partnerships ip.1 == k).map fun ip =>
        ((if spy_two ∈ ip.2.capture_pile ∨ spy_two ∈ ip.2.hand then 1 else 0) +
         (if big_ten ∈ ip.2.capture_pile ∨ big_ten ∈ ip.2.hand then 2 else 0) +
         ip.2.capture_pile.countP fun c => c.rank == Rank.rA)).sum := by
    intro k
    rw [tally]
    exact congrArg List.sum (List.map_congr_left fun ip _ => special_score_eq ip.2)
  have hsplit := sum_map_mul_add (score_keys partnerships players)
    (fun k => (ScoreKey.members k).count i)
    (fun k => if partnerships.isSome ∨ players.length = 2
       then majority_award (tally partnerships players count_cards)
              (score_keys partnerships players) k +
            majority_award (tally partnerships players count_spades)
              (score_keys partnerships players) k
       else 0)
    (fun k => ((players.enum.filter fun ip =>
        player_key partnerships ip.1 == k).map fun ip =>
      ((if spy_two ∈ ip.2.capture_pile ∨ spy_two ∈ ip.2.hand then 1 else 0) +
       (if big_ten ∈ ip.2.capture_pile ∨ big_ten ∈ ip.2.hand then 2 else 0) +
       ip.2.capture_pile.countP fun c => c.rank == Rank.rA)).sum)
  have hcong :
      ((score_keys partnerships players).map fun k =>
        (ScoreKey.members k).count i *
          ((if partnerships.isSome ∨ players.length = 2
            then majority_award (tally partnerships players count_cards)
                   (score_keys partnerships players) k +
                 majority_award (tally partnerships players count_spades)
                   (score_keys partnerships players) k
            else 0) +
           tally partnerships players special_score k)).sum =
      ((score_keys partnerships players).map fun k =>
        (ScoreKey.members k).count i *
          ((if partnerships.isSome ∨ players.length = 2
            then majority_award (tally partnerships players count_cards)
                   (score_keys partnerships players) k +
                 majority_award (tally partnerships players count_spades)
                   (score_keys partnerships players) k
            else 0) +
           ((players.enum.filter fun ip =>
               player_key partnerships ip.1 == k).map fun ip =>
             ((if spy_two ∈ ip.2.capture_pile ∨ spy_two ∈ ip.2.hand then 1 else 0) +
              (if big_ten ∈ ip.2.capture_pile ∨ big_ten ∈ ip.2.hand then 2 else 0) +
              ip.2.capture_pile.countP fun c => c.rank == Rank.rA)).sum)).sum :=
    congrArg List.sum (List.map_congr_left fun k _ => by rw [hB k])
  rw [calculate_scores]
  show ((List.range players.length).map fun i =>
      ((score_keys partnerships players).map fun k =>
        (ScoreKey.members k).count i *
          ((if partnerships.isSome ∨ players.length = 2
            then majority_award (tally partnerships players count_cards)
                   (score_keys partnerships players) k +
                 majority_award (tally partnerships players count_spades)
                   (score_keys partnerships players) k
            else 0) +
           tally partnerships players special_score k)).sum).getD i 0 = _
  rw [range_map_getD _ hi]
  exact hcong.trans hsplit

/-- Witness for the scoring claim at a four-player partnership game: player 0
holds 2♠ in hand (uncaptured) and partner 2 holds 10♦ in the pile; both
special cards score to the pair key and credit player 0. -/
theorem special_card_scoring_witness :
    (calculate_scores score_example_partnerships score_example_players).getD 0 0 =
      ((score_keys score_example_partnerships score_example_players).map fun k =>
        (ScoreKey.members k).count 0 *
          (if score_example_partnerships.isSome ∨ score_example_players.length = 2
           then majority_award
                  (tally score_example_partnerships score_example_players count_cards)
                  (score_keys score_example_partnerships score_example_players) k +
                majority_award
                  (tally score_example_partnerships score_example_players count_spades)
                  (score_keys score_example_partnerships score_example_players) k
           else 0)).sum +
      ((score_keys score_example_partnerships score_example_players).map fun k =>
        (ScoreKey.members k).count 0 *
          ((score_example_players.enum.filter fun ip =>
              player_key score_example_partnerships ip.1 == k).map fun ip =>
            ((if spy_two ∈ ip.2.capture_pile ∨ spy_two ∈ ip.2.hand then 1 else 0) +
             (if big_ten ∈ ip.2.capture_pile ∨ big_ten ∈ ip.2.hand then 2 else 0) +
             ip.2.capture_pile.countP fun c => c.rank == Rank.rA)).sum).sum :=
  special_card_scoring score_example_partnerships score_example_players 0 (by decide)


end Casino
